import Mathlib

/-!
Verification of the PyHeap heap-snapshot codec and retained-heap analyzer.

The definitions below are a shallow embedding of the Python sources:
* `pyheap/src/dumper_inferior.py` (the snapshot writer `_HeapWriter` / `_dump_heap`),
* `pyheap-ui/src/pyheap_ui/heap_reader.py` (the snapshot reader `HeapReader`),
* `pyheap-ui/src/pyheap_ui/heap.py` (InboundReferences, RetainedHeapCalculator,
  RetainedHeapCache, RetainedHeap, aggregation views).

Bytes are modelled as natural numbers below 256, buffers as `List Nat`;
machine integers are `Nat`/`Int` with explicit `% 2^w` where relevant.
Loops without a structural measure take explicit fuel and return `Option`/`Except`;
Python exceptions are modelled as `Except` errors.
-/

namespace PyHeapProof

/-! ## Byte-level primitives (struct.pack/unpack with big-endian formats) -/

/-- Big-endian byte encoding of `v` into `w` bytes (the value is taken mod `256^w`,
matching the width of the machine integer being written). -/
def beBytes : Nat → Nat → List Nat
  | 0, _ => []
  | w + 1, v => beBytes w (v / 256) ++ [v % 256]

/-- Big-endian value of a byte list (`struct.unpack` of an unsigned integer). -/
def beVal (l : List Nat) : Nat := l.foldl (fun acc b => acc * 256 + b) 0

/-- `struct.pack("!H", ·)` / `struct.pack` of an unsigned 16-bit integer. -/
def encodeU16 (v : Nat) : List Nat := beBytes 2 v

/-- `struct.pack("!I", ·)`: unsigned 32-bit big-endian. -/
def encodeU32 (v : Nat) : List Nat := beBytes 4 v

/-- `struct.pack("!Q", ·)`: unsigned 64-bit big-endian. -/
def encodeU64 (v : Nat) : List Nat := beBytes 8 v

/-- `struct.pack("!h", ·)`: signed 16-bit big-endian, two's complement. -/
def encodeI16 (v : Int) : List Nat := beBytes 2 (v.emod 65536).toNat

/-- `struct.unpack("!h", ·)`: signed 16-bit big-endian, two's complement. -/
def decodeI16 (l : List Nat) : Int :=
  let n := beVal l
  if n < 32768 then (n : Int) else (n : Int) - 65536

/-- `struct.pack("!?", ·)` writes one byte, 0 or 1. -/
def encodeBool (b : Bool) : List Nat := [if b then 1 else 0]

theorem beBytes_length (w v : Nat) : (beBytes w v).length = w := by
  induction w generalizing v with
  | zero => rfl
  | succ w ih => simp [beBytes, ih]

theorem beBytes_two (v : Nat) : beBytes 2 v = [v / 256 % 256, v % 256] := by
  simp [beBytes, Nat.div_div_eq_div_mul]

theorem beVal_two (a b : Nat) : beVal [a, b] = a * 256 + b := by
  simp [beVal, List.foldl]

theorem beVal_beBytes_two (v : Nat) (h : v < 65536) : beVal (beBytes 2 v) = v := by
  rw [beBytes_two, beVal_two]
  have h1 : v / 256 < 256 := by omega
  rw [Nat.mod_eq_of_lt h1]
  omega

/-! ## UTF-8 encoding (Python `str.encode("utf-8")`) -/

/-- UTF-8 bytes of a single Unicode code point. -/
def charUtf8 (c : Char) : List Nat :=
  let n := c.toNat
  if n < 0x80 then [n]
  else if n < 0x800 then [0xC0 + n / 64, 0x80 + n % 64]
  else if n < 0x10000 then [0xE0 + n / 4096, 0x80 + n / 64 % 64, 0x80 + n % 64]
  else [0xF0 + n / 262144, 0x80 + n / 4096 % 64, 0x80 + n / 64 % 64, 0x80 + n % 64]

/-- `value.encode("utf-8")` as a byte list. -/
def strUtf8 (s : String) : List Nat := s.toList.foldr (fun c acc => charUtf8 c ++ acc) []

/-! ## UTF-8 decoding with the `backslashreplace` error handler
(`bytes.decode("utf-8", "backslashreplace")`, used by
`HeapReader._read_string_with_known_length`).  The decoder is total over byte
content: a byte that does not start a valid sequence is replaced by the text
`\xNN` and decoding restarts at the next byte. -/

/-- Lowercase hex digit. -/
def hexDigit (n : Nat) : Char :=
  if n < 10 then Char.ofNat (48 + n) else Char.ofNat (87 + n)

/-- The `\xNN` replacement the `backslashreplace` handler produces for byte `b`. -/
def backslashEscape (b : Nat) : List Char :=
  ['\\', 'x', hexDigit (b / 16 % 16), hexDigit (b % 16)]

/-- Is `b` a UTF-8 continuation byte (`0b10xxxxxx`)? -/
def isCont (b : Nat) : Bool := 0x80 ≤ b && b < 0xC0

/-- One step of UTF-8 decoding: decode a code point from the head of the list,
or escape the head byte.  Returns the produced characters and the rest. -/
def utf8Step : List Nat → (List Char × List Nat)
  | [] => ([], [])
  | b :: rest =>
    if b < 0x80 then ([Char.ofNat b], rest)
    else if b < 0xC2 then (backslashEscape b, rest)
    else if b < 0xE0 then
      match rest with
      | c1 :: rest1 =>
        if isCont c1 then ([Char.ofNat ((b - 0xC0) * 64 + (c1 - 0x80))], rest1)
        else (backslashEscape b, rest)
      | [] => (backslashEscape b, rest)
    else if b < 0xF0 then
      match rest with
      | c1 :: c2 :: rest2 =>
        if isCont c1 && isCont c2 then
          let n := (b - 0xE0) * 4096 + (c1 - 0x80) * 64 + (c2 - 0x80)
          if n < 0x800 || (0xD800 ≤ n && n < 0xE000) then (backslashEscape b, rest)
          else ([Char.ofNat n], rest2)
        else (backslashEscape b, rest)
      | _ => (backslashEscape b, rest)
    else if b < 0xF5 then
      match rest with
      | c1 :: c2 :: c3 :: rest3 =>
        if isCont c1 && isCont c2 && isCont c3 then
          let n := (b - 0xF0) * 262144 + (c1 - 0x80) * 4096 + (c2 - 0x80) * 64 + (c3 - 0x80)
          if n < 0x10000 || 0x110000 ≤ n then (backslashEscape b, rest)
          else ([Char.ofNat n], rest3)
        else (backslashEscape b, rest)
      | _ => (backslashEscape b, rest)
    else (backslashEscape b, rest)

/-- Fuelled decoding loop; each step consumes at least one byte, so
`l.length` steps suffice. -/
def utf8DecodeGo : Nat → List Nat → List Char
  | 0, _ => []
  | fuel + 1, l =>
    match l with
    | [] => []
    | _ =>
      let (cs, rest) := utf8Step l
      cs ++ utf8DecodeGo fuel rest

/-- `bytes.decode("utf-8", "backslashreplace")`: total over byte content. -/
def utf8DecodeBackslash (l : List Nat) : String :=
  String.mk (utf8DecodeGo l.length l)

/-! ## Stable descending sort
(`front.sort(key=lambda x: view[x], reverse=True)`: Python's sort is stable;
with `reverse=True` ties keep their original relative order). -/

/-- Insert `x` after every element whose key is `≥ key x` (stability on ties). -/
def insertDesc (key : α → Int) (x : α) : List α → List α
  | [] => [x]
  | y :: ys => if key x ≤ key y then y :: insertDesc key x ys else x :: y :: ys

/-- Stable sort, descending by `key`; equal keys keep list order. -/
def sortDesc (key : α → Int) (l : List α) : List α :=
  l.foldl (fun acc x => insertDesc key x acc) []

/-! ## The snapshot writer (`pyheap/src/dumper_inferior.py`)

`_HeapWriter` primitives and the byte stream emitted by `_dump_heap`,
parametrized over the data the walker feeds it (threads with frames and
locals, the frequent-attribute table, the common types with their shared
attribute maps, the objects, the type-name table). -/

/-- `_HeapWriter._MAGIC = 123_000_321`. -/
def MAGIC : Nat := 123000321

/-- `write_long_string`: `struct.pack("!H{len}s", len(b), b)`. -/
def writeLongString (s : String) : List Nat :=
  encodeU16 (strUtf8 s).length ++ strUtf8 s

/-- `write_short_string`: `struct.pack("!h{len}s", len(b), b)`. -/
def writeShortString (s : String) : List Nat :=
  encodeI16 (strUtf8 s).length ++ strUtf8 s

/-- `write_attribute`: a frequent attribute at index `i` is written as the
signed 16-bit value `-1 * i - 1` with no string bytes; otherwise the name is
inlined as a short string.  The attribute value address follows as a u64. -/
def writeAttribute (freq : List String) (name : String) (value : Nat) : List Nat :=
  (match freq.indexOf? name with
   | some i => encodeI16 (-(i : Int) - 1)
   | none => writeShortString name) ++ encodeU64 value

/-- One frame written by `_write_threads_and_return_locals`. -/
structure WFrame where
  coFilename : String
  lineno : Nat
  coName : String
  localsL : List (String × Nat)
  deriving Repr, DecidableEq

structure WThread where
  name : String
  isAlive : Bool
  isDaemon : Bool
  frames : List WFrame
  deriving Repr, DecidableEq

structure WCommonType where
  addr : Nat
  attrs : List (String × Nat)
  deriving Repr, DecidableEq

structure WObject where
  addr : Nat
  type : Nat
  size : Nat
  referents : List Nat
  attrs : List (String × Nat)
  strRepr : String
  deriving Repr, DecidableEq

/-- The data `_dump_heap` serializes. -/
structure WriterData where
  createdAt : String
  withStrRepr : Bool
  threads : List WThread
  frequentAttrs : List String
  commonTypes : List WCommonType
  objects : List WObject
  types : List (Nat × String)
  deriving Repr, DecidableEq

def writeBool (b : Bool) : List Nat := encodeBool b

def writeFrame (f : WFrame) : List Nat :=
  writeLongString f.coFilename ++ encodeU32 f.lineno ++ writeLongString f.coName ++
  encodeU32 f.localsL.length ++
  (f.localsL.foldr (fun (l : String × Nat) acc =>
    writeLongString l.1 ++ encodeU64 l.2 ++ acc) [])

def writeThread (t : WThread) : List Nat :=
  writeLongString t.name ++ writeBool t.isAlive ++ writeBool t.isDaemon ++
  encodeU32 t.frames.length ++ (t.frames.foldr (fun f acc => writeFrame f ++ acc) [])

/-- `_write_threads_and_return_locals`: thread count then each thread. -/
def writeThreads (ts : List WThread) : List Nat :=
  encodeU32 ts.length ++ ts.foldr (fun t acc => writeThread t ++ acc) []

/-- `_write_frequent_attributes`: count then the names as short strings. -/
def writeFrequentAttrs (freq : List String) : List Nat :=
  encodeU32 freq.length ++ freq.foldr (fun a acc => writeShortString a ++ acc) []

/-- `_write_common_types`: count, then per type its address and attributes. -/
def writeCommonTypes (freq : List String) (cts : List WCommonType) : List Nat :=
  encodeU32 cts.length ++ cts.foldr (fun ct acc =>
    encodeU64 ct.addr ++ encodeU32 ct.attrs.length ++
    (ct.attrs.foldr (fun (a : String × Nat) acc2 => writeAttribute freq a.1 a.2 ++ acc2) []) ++
    acc) []

/-- One object in `_write_objects_and_return_types`: address, type, size,
referents; attributes only for non-common types; a long string representation
when `str_repr_len >= 0`. -/
def writeObject (freq : List String) (commonIds : List Nat) (withStrRepr : Bool)
    (o : WObject) : List Nat :=
  encodeU64 o.addr ++ encodeU64 o.type ++ encodeU32 o.size ++
  encodeU32 o.referents.length ++ (o.referents.foldr (fun r acc => encodeU64 r ++ acc) []) ++
  (if o.type ∈ commonIds then []
   else encodeU32 o.attrs.length ++
     (o.attrs.foldr (fun (a : String × Nat) acc => writeAttribute freq a.1 a.2 ++ acc) [])) ++
  (if withStrRepr then writeLongString o.strRepr else [])

/-- `_write_objects_and_return_types`: the reserved count mark is backpatched
with the number of objects written, so the stream is the count followed by the
objects. -/
def writeObjects (freq : List String) (commonIds : List Nat) (withStrRepr : Bool)
    (objs : List WObject) : List Nat :=
  encodeU32 objs.length ++
  objs.foldr (fun o acc => writeObject freq commonIds withStrRepr o ++ acc) []

def writeTypes (ts : List (Nat × String)) : List Nat :=
  encodeU32 ts.length ++
  ts.foldr (fun (t : Nat × String) acc => encodeU64 t.1 ++ writeLongString t.2 ++ acc) []

/-- `_dump_heap`: header (magic, version, created_at, flags), thread table,
frequent-attribute table, common-type table, object stream, type-name table,
footer magic.  Note: no well-known-types table is written after the flags, and
objects carry no container payload. -/
def dumpHeap (w : WriterData) : List Nat :=
  encodeU64 MAGIC ++
  encodeU32 1 ++
  writeLongString w.createdAt ++
  encodeU64 (if w.withStrRepr then 1 else 0) ++
  writeThreads w.threads ++
  writeFrequentAttrs w.frequentAttrs ++
  writeCommonTypes w.frequentAttrs w.commonTypes ++
  writeObjects w.frequentAttrs (w.commonTypes.map (·.addr)) w.withStrRepr w.objects ++
  writeTypes w.types ++
  encodeU64 MAGIC

/-! ## The snapshot reader (`pyheap-ui/src/pyheap_ui/heap_reader.py`)

`HeapReader` reads from an immutable buffer at a moving offset.  Python
exceptions are modelled as `Except` errors: `struct.error` on a truncated
primitive, `ValueError` on a bad magic or version, `KeyError`/`IndexError` on
missing well-known types or an out-of-range frequent-attribute index. -/

inductive RErr
  | truncated
  | invalidMagic
  | badVersion
  | keyError
  | indexError
  deriving Repr, DecidableEq

/-- `struct.unpack_from` of `n` bytes at `off`: fails when the buffer is too
short. -/
def readBytes (buf : List Nat) (off n : Nat) : Except RErr (List Nat) :=
  if off + n ≤ buf.length then .ok ((buf.drop off).take n) else .error .truncated

def readU16 (buf : List Nat) (off : Nat) : Except RErr (Nat × Nat) :=
  (readBytes buf off 2).map (fun bs => (beVal bs, off + 2))

def readU32 (buf : List Nat) (off : Nat) : Except RErr (Nat × Nat) :=
  (readBytes buf off 4).map (fun bs => (beVal bs, off + 4))

def readU64 (buf : List Nat) (off : Nat) : Except RErr (Nat × Nat) :=
  (readBytes buf off 8).map (fun bs => (beVal bs, off + 8))

def readSignedShort (buf : List Nat) (off : Nat) : Except RErr (Int × Nat) :=
  (readBytes buf off 2).map (fun bs => (decodeI16 bs, off + 2))

/-- `_read_bool`: one byte, any non-zero value is `True`. -/
def readBool (buf : List Nat) (off : Nat) : Except RErr (Bool × Nat) :=
  (readBytes buf off 1).map (fun bs => (bs.headI ≠ 0, off + 1))

/-- `_read_string_with_known_length`: take `length` bytes and decode them with
the `backslashreplace` handler. -/
def readStringKnownLength (buf : List Nat) (off n : Nat) : Except RErr (String × Nat) :=
  (readBytes buf off n).map (fun bs => (utf8DecodeBackslash bs, off + n))

/-- `_read_long_string`: u16 length then the string bytes. -/
def readLongString (buf : List Nat) (off : Nat) : Except RErr (String × Nat) := do
  let (n, off) ← readU16 buf off
  readStringKnownLength buf off n

/-- Read `n` items with an offset-threading item parser. -/
def readListN (item : Nat → Except RErr (α × Nat)) : Nat → Nat → Except RErr (List α × Nat)
  | 0, off => .ok ([], off)
  | n + 1, off => do
    let (x, off) ← item off
    let (xs, off) ← readListN item n off
    .ok (x :: xs, off)

/-- `_read_attribute_name`: a non-negative i16 is an inline string length, a
negative one is the frequent-attribute index `-1 * (value + 1)`. -/
def readAttributeName (buf : List Nat) (freq : List String) (off : Nat) :
    Except RErr (String × Nat) := do
  let (k, off) ← readSignedShort buf off
  if 0 ≤ k then
    readStringKnownLength buf off k.toNat
  else
    let trueIndex := (-1 * (k + 1)).toNat
    match freq.get? trueIndex with
    | some s => .ok (s, off)
    | none => .error .indexError

/-- `_skip_attribute_name_or_index`: advances past the name without reading it.
No bounds check is performed on the skip itself. -/
def skipAttributeNameOrIndex (buf : List Nat) (off : Nat) : Except RErr Nat := do
  let (k, off) ← readSignedShort buf off
  if 0 ≤ k then .ok (off + k.toNat) else .ok off

/-- `_skip_long_string`: reads the u16 length and jumps over the bytes. -/
def skipLongString (buf : List Nat) (off : Nat) : Except RErr Nat := do
  let (n, off) ← readU16 buf off
  .ok (off + n)

structure RFlags where
  withStrRepr : Bool
  deriving Repr, DecidableEq

structure RHeader where
  version : Nat
  createdAt : String
  flags : RFlags
  wellKnownTypes : List (String × Nat)
  deriving Repr, DecidableEq

structure RFrame where
  coFilename : String
  lineno : Nat
  coName : String
  localsL : List (String × Nat)
  deriving Repr, DecidableEq

structure RThread where
  name : String
  isAlive : Bool
  isDaemon : Bool
  stackTrace : List RFrame
  deriving Repr, DecidableEq

/-- Decoded container content (`ObjectContent`). -/
inductive RContent
  | none
  | dictC (pairs : List (Nat × Nat))
  | listC (elems : List Nat)
  | setC (elems : List Nat)
  | tupleC (elems : List Nat)
  deriving Repr, DecidableEq

/-- A decoded object.  `referents` lists the set members in read order;
`attrsOffset` is the recorded file offset of the attribute block (`-1` for
common-type instances, whose shared table is substituted), and `strOffset` the
recorded string-representation offset. -/
structure RObject where
  address : Nat
  type : Nat
  size : Nat
  referents : List Nat
  content : RContent
  attrsOffset : Int
  strOffset : Nat
  deriving Repr, DecidableEq

structure RHeap where
  header : RHeader
  threads : List RThread
  objects : List (Nat × RObject)
  types : List (Nat × String)
  deriving Repr, DecidableEq

def lookupStr (l : List (String × Nat)) (k : String) : Option Nat :=
  (l.find? (fun p => p.1 = k)).map (·.2)

/-- `_read_heap_flags`: u64, bit 0 is `with_str_repr`. -/
def readHeapFlags (buf : List Nat) (off : Nat) : Except RErr (RFlags × Nat) := do
  let (v, off) ← readU64 buf off
  .ok (⟨v % 2 = 1⟩, off)

/-- Well-known-types table: count then (long string, u64) pairs. -/
def readWkt (buf : List Nat) (off : Nat) : Except RErr (List (String × Nat) × Nat) := do
  let (n, off) ← readU32 buf off
  readListN (fun o => do
    let (k, o) ← readLongString buf o
    let (v, o) ← readU64 buf o
    .ok ((k, v), o)) n off

/-- `_read_heap_header`: version (must be 1), created_at, flags,
well-known types. -/
def readHeapHeader (buf : List Nat) (off : Nat) : Except RErr (RHeader × Nat) := do
  let (version, off) ← readU32 buf off
  let (createdAt, off) ← readLongString buf off
  let (flags, off) ← readHeapFlags buf off
  let (wkt, off) ← readWkt buf off
  if version ≠ 1 then .error .badVersion
  else .ok (⟨version, createdAt, flags, wkt⟩, off)

def readFrame (buf : List Nat) (off : Nat) : Except RErr (RFrame × Nat) := do
  let (fn, off) ← readLongString buf off
  let (ln, off) ← readU32 buf off
  let (nm, off) ← readLongString buf off
  let (nl, off) ← readU32 buf off
  let (ls, off) ← readListN (fun o => do
    let (k, o) ← readLongString buf o
    let (v, o) ← readU64 buf o
    .ok ((k, v), o)) nl off
  .ok (⟨fn, ln, nm, ls⟩, off)

def readThread (buf : List Nat) (off : Nat) : Except RErr (RThread × Nat) := do
  let (nm, off) ← readLongString buf off
  let (al, off) ← readBool buf off
  let (dm, off) ← readBool buf off
  let (nf, off) ← readU32 buf off
  let (fs, off) ← readListN (readFrame buf) nf off
  .ok (⟨nm, al, dm, fs⟩, off)

def readThreads (buf : List Nat) (off : Nat) : Except RErr (List RThread × Nat) := do
  let (n, off) ← readU32 buf off
  readListN (readThread buf) n off

/-- The common-type table: u64 type address and the shared attribute map. -/
def readCommonTypes (buf : List Nat) (freq : List String) (off : Nat) :
    Except RErr (List (Nat × List (String × Nat)) × Nat) := do
  let (n, off) ← readU32 buf off
  readListN (fun o => do
    let (k, o) ← readU64 buf o
    let (na, o) ← readU32 buf o
    let (attrs, o) ← readListN (fun o2 => do
      let (a, o2) ← readAttributeName buf freq o2
      let (v, o2) ← readU64 buf o2
      .ok ((a, v), o2)) na o
    .ok ((k, attrs), o)) n off

/-- `_read_heap_object`: type and size, container payload for the four
well-known container types, referents merged with the container's extra
referents, a skipped attribute block for non-common types, and a skipped
string representation (when the flag is set and the object is not a
container). -/
def readHeapObject (buf : List Nat) (wkt : List (String × Nat))
    (freq : List String) (commonIds : List Nat) (withStrRepr : Bool)
    (address off0 : Nat) : Except RErr (RObject × Nat) := do
  let (ty, off) ← readU64 buf off0
  let (size, off) ← readU32 buf off
  match lookupStr wkt "dict", lookupStr wkt "list", lookupStr wkt "set",
      lookupStr wkt "tuple" with
  | some wktDict, some wktList, some wktSet, some wktTuple => do
    let isContainer := ty = wktDict ∨ ty = wktList ∨ ty = wktSet ∨ ty = wktTuple
    -- Four independent `if` statements in the source; each overwrites
    -- `content` and extends the extra referents.
    let (content, extra, off) ←
      if ty = wktDict then do
        let (n, off) ← readU32 buf off
        let (pairs, off) ← readListN (fun o => do
          let (k, o) ← readU64 buf o
          let (v, o) ← readU64 buf o
          .ok ((k, v), o)) n off
        .ok (RContent.dictC pairs, pairs.map (·.1) ++ pairs.map (·.2), off)
      else .ok (RContent.none, ([] : List Nat), off)
    let (content, extra, off) ←
      if ty = wktList then do
        let (n, off) ← readU32 buf off
        let (elems, off) ← readListN (readU64 buf) n off
        .ok (RContent.listC elems, extra ++ elems, off)
      else .ok (content, extra, off)
    let (content, extra, off) ←
      if ty = wktSet then do
        let (n, off) ← readU32 buf off
        let (elems, off) ← readListN (readU64 buf) n off
        .ok (RContent.setC elems, extra ++ elems, off)
      else .ok (content, extra, off)
    let (content, extra, off) ←
      if ty = wktTuple then do
        let (n, off) ← readU32 buf off
        let (elems, off) ← readListN (readU64 buf) n off
        .ok (RContent.tupleC elems, extra ++ elems, off)
      else .ok (content, extra, off)
    let (nref, off) ← readU32 buf off
    let (refs, off) ← readListN (readU64 buf) nref off
    -- referents.update(extra_referents): the set union, kept in read order.
    let referents := refs ++ extra.filter (fun r => r ∉ refs)
    let (attrsOffset, off) ←
      if ty ∉ commonIds then do
        let attrsOffset := (off : Int)
        let (attrCount, off) ← readU32 buf off
        let off ← (List.range attrCount).foldlM (fun o _ => do
          let o ← skipAttributeNameOrIndex buf o
          .ok (o + 8)) off
        .ok (attrsOffset, off)
      else .ok ((-1 : Int), off)
    let strOffset := off
    let off ← if withStrRepr ∧ ¬ isContainer then skipLongString buf off else .ok off
    .ok (⟨address, ty, size, referents, content, attrsOffset, strOffset⟩, off)
  | _, _, _, _ => .error .keyError

/-- `_read_object_dict`: frequent attributes, common types, then the object
stream. -/
def readObjectDict (buf : List Nat) (header : RHeader) (off : Nat) :
    Except RErr (List (Nat × RObject) × Nat) := do
  let (nf, off) ← readU32 buf off
  let (freq, off) ← readListN (readLongString buf) nf off
  let (common, off) ← readCommonTypes buf freq off
  let commonIds := common.map (·.1)
  let (nObj, off) ← readU32 buf off
  readListN (fun o => do
    let (addr, o) ← readU64 buf o
    let (obj, o) ← readHeapObject buf header.wellKnownTypes freq commonIds
      header.flags.withStrRepr addr o
    .ok ((addr, obj), o)) nObj off

/-- The types table: count then (u64, long string) pairs. -/
def readTypes (buf : List Nat) (off : Nat) : Except RErr (List (Nat × String) × Nat) := do
  let (n, off) ← readU32 buf off
  readListN (fun o => do
    let (k, o) ← readU64 buf o
    let (v, o) ← readLongString buf o
    .ok ((k, v), o)) n off

/-- `_read(Heap)`: the dataclass fields header, threads, objects, types. -/
def readHeapBody (buf : List Nat) (off : Nat) : Except RErr (RHeap × Nat) := do
  let (header, off) ← readHeapHeader buf off
  let (threads, off) ← readThreads buf off
  let (objects, off) ← readObjectDict buf header off
  let (types, off) ← readTypes buf off
  .ok (⟨header, threads, objects, types⟩, off)

/-- `HeapReader.read`: opening magic, heap body, closing magic at the offset
where the body parse ended. -/
def heapReaderRead (buf : List Nat) : Except RErr RHeap := do
  let (m, off) ← readU64 buf 0
  if m ≠ MAGIC then .error .invalidMagic
  else do
    let (heap, off) ← readHeapBody buf off
    let (m2, _) ← readU64 buf off
    if m2 ≠ MAGIC then .error .invalidMagic
    else .ok heap

/-! ## The retained-heap analyzer (`pyheap-ui/src/pyheap_ui/heap.py`)

The calculator consumes the decoded heap: an insertion-ordered map
`Address -> HeapObject` (shallow size and referent set) and the thread list.
Referent sets are kept as lists; the inbound-reference index counts each
referencing object once, as the source's sets do. -/

structure CalcObj where
  size : Nat
  referents : List Nat
  deriving Repr, DecidableEq

structure CalcHeap where
  objects : List (Nat × CalcObj)
  threads : List RThread
  deriving Repr, DecidableEq

def CalcHeap.keys (h : CalcHeap) : List Nat := h.objects.map (·.1)

def lookupObj (h : CalcHeap) (a : Nat) : Option CalcObj :=
  (h.objects.find? (fun p => p.1 = a)).map (·.2)

/-- `InboundReferences._index_inbound_references`: the set of objects whose
referents contain `x` (each referencing object counted once). -/
def inboundList (h : CalcHeap) (x : Nat) : List Nat :=
  (h.objects.filter (fun p => x ∈ p.2.referents)).map (·.1)

/-- The index has a key for every object address and every referent; looking
up any other address raises `KeyError` (`InboundReferences.__getitem__`). -/
def inboundKnown (h : CalcHeap) (x : Nat) : Bool :=
  (h.objects.any (fun p => p.1 = x)) || h.objects.any (fun p => x ∈ p.2.referents)

def inboundGet (h : CalcHeap) (x : Nat) : Option (List Nat) :=
  if inboundKnown h x then some (inboundList h x) else none

/-- Association-list update with shadowing; lookups see the newest binding. -/
def lookupVal (l : List (Nat × Nat)) (a : Nat) : Option Nat :=
  (l.find? (fun p => p.1 = a)).map (·.2)

def valueD (l : List (Nat × Nat)) (a : Nat) : Nat := (lookupVal l a).getD 0

/-- The result of Phase 1 (`_find_strict_subtrees`): the set of strict-subtree
roots and the retained sizes assigned to them
(`_subtree_roots` / `_object_retained_heap`). -/
structure P1Result where
  roots : Finset Nat
  vals : List (Nat × Nat)
  deriving DecidableEq

/-- One object of the initial marking: an object with no referents and fewer
than two inbound references becomes a root with retained size equal to its own
size, and its inbound references seed the front. -/
def p1InitStep (h : CalcHeap) (st : P1Result × Finset Nat) (p : Nat × CalcObj) :
    P1Result × Finset Nat :=
  if p.2.referents = [] ∧ (inboundList h p.1).length < 2 then
    (⟨insert p.1 st.1.roots, (p.1, p.2.size) :: st.1.vals⟩,
      st.2 ∪ (inboundList h p.1).toFinset)
  else st

/-- Initial marking over all objects (dict iteration order). -/
def p1Init (h : CalcHeap) : P1Result × Finset Nat :=
  h.objects.foldl (p1InitStep h) (⟨∅, []⟩, ∅)

/-- One pass of the expansion loop over the current front (the front is a
Python set; we iterate it in heap-key order).  A candidate with more than one
inbound reference is dropped; one with referents not yet roots is deferred to
the next front; otherwise it is admitted with retained size
`size + sum of its referents' retained sizes` and its inbound references join
the next front.  Front elements are always inbound references of objects and
hence object keys, so the object lookup cannot fail; a missing key is skipped
to keep the function total. -/
def p1Pass (h : CalcHeap) : List Nat → P1Result → Finset Nat → P1Result × Finset Nat
  | [], st, next => (st, next)
  | current :: rest, st, next =>
    match lookupObj h current with
    | none => p1Pass h rest st next
    | some obj =>
      if 1 < (inboundList h current).length then p1Pass h rest st next
      else if obj.referents.any (fun r => r ∉ st.roots) then
        p1Pass h rest st (insert current next)
      else
        p1Pass h rest
          ⟨insert current st.roots,
            (current, obj.size + (obj.referents.map (valueD st.vals)).sum) :: st.vals⟩
          (next ∪ (inboundList h current).toFinset)

/-- The `while next_front != front` loop with its inner
`if front == next_front: break`, fuelled. -/
def p1Loop (h : CalcHeap) : Nat → Finset Nat → P1Result → Option P1Result
  | 0, _, _ => none
  | fuel + 1, front, st =>
    if front = ∅ then some st
    else
      let (st', next) := p1Pass h (h.keys.filter (· ∈ front)) st ∅
      if front = next then some st'
      else p1Loop h fuel next st'

/-- `_find_strict_subtrees`. -/
def findStrictSubtrees (h : CalcHeap) (fuel : Nat) : Option P1Result :=
  let (st, front) := p1Init h
  p1Loop h fuel front st

/-! ### Phase 2: per-object simulated deletion (`_retained_heap0`) -/

structure SimState where
  front : List Nat
  view : List (Nat × Int)
  deleted : Finset Nat

/-- `inbound_reference_view[x]`; every address in the front has an entry, so
the default is never consulted in a reachable state. -/
def viewOf (s : SimState) (a : Nat) : Int :=
  ((s.view.find? (fun p => p.1 = a)).map (·.2)).getD 0

/-- `_update_inbound_references_view`: a first touch is initialized to the
global inbound count minus one (for the newly deleted parent); later touches
decrement. -/
def updateViews (h : CalcHeap) (toAdd : List Nat) (view : List (Nat × Int)) :
    List (Nat × Int) :=
  toAdd.foldl
    (fun v r =>
      if v.any (fun p => p.1 = r) then
        (r, (((v.find? (fun p => p.1 = r)).map (·.2)).getD 0) - 1) :: v
      else
        (r, ((inboundList h r).length : Int) - 1) :: v)
    view

/-- `_retained_heap_calculation_iteration`: walk the front from the tail.
Stop at the first entry whose view count is positive; skip entries already
deleted; otherwise pop and delete the entry, and either take the Phase-1
shortcut for subtree roots, or add the shallow size and push the not-deleted
referents (updating their view counts).  Addresses absent from the object map
are deleted without contributing anything. -/
def sweepGo (h : CalcHeap) (p1 : P1Result) (useSub : Bool) :
    Nat → SimState → Nat → Bool → Nat × Bool × SimState
  | 0, s, acc, hap => (acc, hap, s)
  | i + 1, s, acc, hap =>
    if 0 < viewOf s (s.front.getD i 0) then (acc, hap, s)
    else if s.front.getD i 0 ∈ s.deleted then sweepGo h p1 useSub i s acc hap
    else if useSub ∧ s.front.getD i 0 ∈ p1.roots then
      sweepGo h p1 useSub i
        ⟨s.front.eraseIdx i, s.view, insert (s.front.getD i 0) s.deleted⟩
        (acc + valueD p1.vals (s.front.getD i 0)) true
    else
      match lookupObj h (s.front.getD i 0) with
      | some obj =>
        sweepGo h p1 useSub i
          ⟨s.front.eraseIdx i ++ obj.referents.filter
              (fun r => r ∉ insert (s.front.getD i 0) s.deleted),
            updateViews h (obj.referents.filter
              (fun r => r ∉ insert (s.front.getD i 0) s.deleted)) s.view,
            insert (s.front.getD i 0) s.deleted⟩
          (acc + obj.size) true
      | none =>
        sweepGo h p1 useSub i
          ⟨s.front.eraseIdx i, s.view, insert (s.front.getD i 0) s.deleted⟩ acc true

/-- `_retained_heap0`: sort the front descending by view count (stable), run a
sweep, and repeat until a sweep deletes nothing; fuelled. -/
def retainedHeap0 (h : CalcHeap) (p1 : P1Result) (useSub : Bool) :
    Nat → SimState → Nat → Option (Nat × SimState)
  | 0, _, _ => none
  | fuel + 1, s, acc =>
    let sorted := sortDesc (viewOf s) s.front
    let s' : SimState := ⟨sorted, s.view, s.deleted⟩
    let r := sweepGo h p1 useSub sorted.length s' 0 false
    if r.2.1 then retainedHeap0 h p1 useSub fuel r.2.2 (acc + r.1)
    else some (acc, r.2.2)

/-- `_retained_heap_for_object`: seed the view with the object itself at zero
("imitate deletion of the initial address"). -/
def retainedHeapForObject (h : CalcHeap) (p1 : P1Result) (useSub : Bool)
    (addr : Nat) (fuel : Nat) : Option Nat :=
  (retainedHeap0 h p1 useSub fuel ⟨[addr], [(addr, 0)], ∅⟩ 0).map (·.1)

/-! ### Phase 3: per-thread retained size (`_calculate_for_all_threads`) -/

/-- `HeapThread.locals`: the set of addresses appearing as local values in any
frame (kept as a deduplicated list). -/
def threadLocals (t : RThread) : List Nat :=
  (t.stackTrace.flatMap (fun f => f.localsL.map (·.2))).dedup

/-- The seed view for deleting a thread: each local gets its global inbound
count, incremented once for each *other* thread (dataclass value equality)
that also holds the address as a local.  The global count is a raw
`InboundReferences` lookup: an address with no entry raises `KeyError`,
modelled as `none`. -/
def threadSeedViews (h : CalcHeap) (threads : List RThread) (t : RThread) :
    Option (List (Nat × Int)) :=
  (threadLocals t).foldlM
    (fun view a =>
      match inboundGet h a with
      | none => none
      | some inb =>
        let extra := (threads.filter
          (fun th => ¬ (th = t) ∧ a ∈ threadLocals th)).length
        some ((a, ((inb.length : Int) + extra)) :: view))
    []

/-- Per-thread retained heap: the seed views, then `_retained_heap0` with the
thread's locals as the front and subtree shortcuts disabled. -/
def threadRetainedHeap (h : CalcHeap) (threads : List RThread) (t : RThread)
    (fuel : Nat) : Option Nat :=
  (threadSeedViews h threads t).bind fun v =>
    (retainedHeap0 h ⟨∅, []⟩ false fuel ⟨threadLocals t, v, ∅⟩ 0).map (·.1)

/-! ## Lemmas about the stable descending sort -/

/-- Descending order by `key`. -/
def SortedDesc (key : α → Int) (l : List α) : Prop :=
  l.Pairwise (fun a b => key b ≤ key a)

theorem insertDesc_perm (key : α → Int) (x : α) (l : List α) :
    (insertDesc key x l).Perm (x :: l) := by
  induction l with
  | nil => simp [insertDesc]
  | cons y ys ih =>
    simp only [insertDesc]
    split
    · exact ((ih.cons y).trans (List.Perm.swap x y ys))
    · exact List.Perm.refl _

theorem insertDesc_sorted (key : α → Int) (x : α) (l : List α)
    (h : SortedDesc key l) : SortedDesc key (insertDesc key x l) := by
  induction l with
  | nil => simp [insertDesc, SortedDesc]
  | cons y ys ih =>
    obtain ⟨hy, hys⟩ := List.pairwise_cons.mp h
    simp only [insertDesc]
    by_cases hxy : key x ≤ key y
    · rw [if_pos hxy]
      refine List.Pairwise.cons ?_ (ih hys)
      intro b hb
      rcases List.mem_cons.mp ((insertDesc_perm key x ys).mem_iff.mp hb) with rfl | hbys
      · exact hxy
      · exact hy b hbys
    · rw [if_neg hxy]
      push_neg at hxy
      refine List.Pairwise.cons ?_ (List.Pairwise.cons hy hys)
      intro b hb
      rcases List.mem_cons.mp hb with rfl | hbys
      · exact le_of_lt hxy
      · exact le_trans (hy b hbys) (le_of_lt hxy)

theorem insertDesc_filter_eq (key : α → Int) (x : α) (l : List α) (k : Int)
    (hs : SortedDesc key l) (hx : key x = k) :
    (insertDesc key x l).filter (fun y => key y = k) =
      l.filter (fun y => key y = k) ++ [x] := by
  induction l with
  | nil => simp [insertDesc, hx]
  | cons y ys ih =>
    obtain ⟨hy, hys⟩ := List.pairwise_cons.mp hs
    simp only [insertDesc]
    by_cases hxy : key x ≤ key y
    · rw [if_pos hxy, List.filter_cons, List.filter_cons]
      by_cases hyk : key y = k
      · simp [hyk, ih hys]
      · simp [hyk, ih hys]
    · rw [if_neg hxy]
      push_neg at hxy
      have hall : ∀ b ∈ y :: ys, ¬ (key b = k) := by
        intro b hb
        rcases List.mem_cons.mp hb with rfl | hb
        · omega
        · have := hy b hb; omega
      have h0 : (y :: ys).filter (fun b => key b = k) = [] :=
        List.filter_eq_nil_iff.mpr (fun b hb => by simpa using hall b hb)
      rw [List.filter_cons]
      simp [hx, h0]

theorem insertDesc_filter_ne (key : α → Int) (x : α) (l : List α) (k : Int)
    (hx : key x ≠ k) :
    (insertDesc key x l).filter (fun y => key y = k) =
      l.filter (fun y => key y = k) := by
  induction l with
  | nil => simp [insertDesc, hx]
  | cons y ys ih =>
    simp only [insertDesc]
    by_cases hxy : key x ≤ key y
    · rw [if_pos hxy, List.filter_cons, List.filter_cons]
      by_cases hyk : key y = k
      · simp [hyk, ih]
      · simp [hyk, ih]
    · rw [if_neg hxy, List.filter_cons]
      simp [hx]

theorem sortDesc_perm (key : α → Int) (l : List α) : (sortDesc key l).Perm l := by
  suffices h : ∀ acc : List α, (l.foldl (fun acc x => insertDesc key x acc) acc).Perm (acc ++ l) by
    simpa using h []
  induction l with
  | nil => simp
  | cons x xs ih =>
    intro acc
    simp only [List.foldl_cons]
    refine (ih (insertDesc key x acc)).trans ?_
    have h1 : (insertDesc key x acc ++ xs).Perm ((x :: acc) ++ xs) :=
      (insertDesc_perm key x acc).append_right xs
    refine h1.trans ?_
    simp only [List.cons_append]
    exact (List.perm_middle).symm

theorem sortDesc_sorted (key : α → Int) (l : List α) : SortedDesc key (sortDesc key l) := by
  suffices h : ∀ acc : List α, SortedDesc key acc →
      SortedDesc key (l.foldl (fun acc x => insertDesc key x acc) acc) by
    exact h [] (List.Pairwise.nil)
  induction l with
  | nil => intro acc h; exact h
  | cons x xs ih =>
    intro acc h
    exact ih _ (insertDesc_sorted key x acc h)

/-- Stability: the subsequence of elements with any given key value is
unchanged by the sort. -/
theorem sortDesc_filter (key : α → Int) (l : List α) (k : Int) :
    (sortDesc key l).filter (fun y => key y = k) = l.filter (fun y => key y = k) := by
  suffices h : ∀ acc : List α, SortedDesc key acc →
      (l.foldl (fun acc x => insertDesc key x acc) acc).filter (fun y => key y = k) =
        acc.filter (fun y => key y = k) ++ l.filter (fun y => key y = k) by
    simpa using h [] List.Pairwise.nil
  induction l with
  | nil => intro acc _; simp
  | cons x xs ih =>
    intro acc hacc
    simp only [List.foldl_cons]
    rw [ih _ (insertDesc_sorted key x acc hacc), List.filter_cons]
    by_cases hx : key x = k
    · rw [insertDesc_filter_eq key x acc k hacc hx]
      simp [hx]
    · rw [insertDesc_filter_ne key x acc k hx]
      simp [hx]

theorem sortDesc_mem (key : α → Int) (l : List α) (x : α) :
    x ∈ sortDesc key l ↔ x ∈ l :=
  (sortDesc_perm key l).mem_iff

theorem sortDesc_length (key : α → Int) (l : List α) :
    (sortDesc key l).length = l.length :=
  (sortDesc_perm key l).length_eq

/-! ## Simulated-deletion invariants

The correctness invariant of `_retained_heap0` (spec: "an address may be
consumed only when its view count reaches zero").  For a simulation seeded
with the set `S` (with seed views `sv`), the view count of a live address
equals its initial count minus the number of deleted objects referencing it,
the accumulator is the total shallow size of the deleted objects, and a sweep
that deletes nothing certifies that every front address is deleted or still
has a positive view count. -/

/-- Referents of the object at `u` (empty for an unknown address). -/
def refsOf (h : CalcHeap) (u : Nat) : List Nat :=
  ((lookupObj h u).map (·.referents)).getD []

/-- Shallow size of the object at `x` (zero for an unknown address). -/
def sizeD (h : CalcHeap) (x : Nat) : Nat :=
  ((lookupObj h x).map (·.size)).getD 0

def inboundCard (h : CalcHeap) (x : Nat) : Nat := (inboundList h x).length

/-- The deleted objects that reference `x`. -/
def deletedParents (h : CalcHeap) (D : Finset Nat) (x : Nat) : Finset Nat :=
  D.filter (fun u => x ∈ refsOf h u)

/-- The initial view count of an address: its seed view for seeds, otherwise
the global inbound count (set at first touch, before the parent decrement that
`_update_inbound_references_view` folds into the initialization). -/
def seedInit (S : Finset Nat) (sv : Nat → Int) (h : CalcHeap) (x : Nat) : Int :=
  if x ∈ S then sv x else (inboundCard h x : Int)

def viewFind (v : List (Nat × Int)) (x : Nat) : Option (Nat × Int) :=
  v.find? (fun p => p.1 = x)

theorem viewOf_eq_viewFind (s : SimState) (x : Nat) :
    viewOf s x = ((viewFind s.view x).map (·.2)).getD 0 := rfl

/-- All referents appearing anywhere in the object map. -/
def allRefs (h : CalcHeap) : Finset Nat :=
  h.objects.foldr (fun p acc => p.2.referents.toFinset ∪ acc) ∅

theorem mem_foldr_refs (l : List (Nat × CalcObj)) (p : Nat × CalcObj) (hp : p ∈ l)
    (r : Nat) (hr : r ∈ p.2.referents) :
    r ∈ l.foldr (fun p acc => p.2.referents.toFinset ∪ acc) ∅ := by
  induction l with
  | nil => cases hp
  | cons q qs ih =>
    simp only [List.foldr_cons, Finset.mem_union]
    rcases List.mem_cons.mp hp with rfl | hp
    · exact Or.inl (List.mem_toFinset.mpr hr)
    · exact Or.inr (ih hp)

theorem mem_allRefs (h : CalcHeap) (p : Nat × CalcObj) (hp : p ∈ h.objects)
    (r : Nat) (hr : r ∈ p.2.referents) : r ∈ allRefs h :=
  mem_foldr_refs h.objects p hp r hr

theorem refsOf_subset_allRefs (h : CalcHeap) (u r : Nat) (hr : r ∈ refsOf h u) :
    r ∈ allRefs h := by
  unfold refsOf at hr
  cases hfind : lookupObj h u with
  | none => rw [hfind] at hr; exact absurd hr (List.not_mem_nil r)
  | some obj =>
    rw [hfind] at hr
    have hr2 : r ∈ obj.referents := hr
    unfold lookupObj at hfind
    cases hf : h.objects.find? (fun p => p.1 = u) with
    | none => rw [hf] at hfind; exact Option.noConfusion hfind
    | some p =>
      rw [hf] at hfind
      have hpo : p.2 = obj := Option.some.inj hfind
      exact mem_allRefs h p (List.mem_of_find?_eq_some hf) r (hpo ▸ hr2)

/-- The invariant of a simulation state. -/
structure SimInv (h : CalcHeap) (S : Finset Nat) (sv : Nat → Int) (s : SimState) : Prop where
  viewEntry : ∀ x, x ∉ s.deleted →
    ((viewFind s.view x).isSome ↔ (x ∈ S ∨ (deletedParents h s.deleted x).Nonempty))
  viewVal : ∀ x, x ∉ s.deleted → (viewFind s.view x).isSome →
    viewOf s x = seedInit S sv h x - (deletedParents h s.deleted x).card
  frontMem : ∀ x, x ∉ s.deleted → (x ∈ S ∨ (deletedParents h s.deleted x).Nonempty) →
    x ∈ s.front
  frontSub : ∀ x ∈ s.front, x ∈ S ∨ (deletedParents h s.deleted x).Nonempty
  delView : ∀ x ∈ s.deleted, viewOf s x ≤ 0
  delOrder : ∃ ord : List Nat, ord.Nodup ∧ s.deleted = ord.toFinset ∧
    ∀ i (hi : i < ord.length), ord.get ⟨i, hi⟩ ∈ S ∨
      ∃ u ∈ ord.take i, ord.get ⟨i, hi⟩ ∈ refsOf h u

/-! ### `_update_inbound_references_view` lemmas -/

theorem updateViews_eq_foldl (h : CalcHeap) (toAdd : List Nat) (v : List (Nat × Int)) :
    updateViews h toAdd v = toAdd.foldl
      (fun v r =>
        if v.any (fun p => p.1 = r) then
          (r, (((v.find? (fun p => p.1 = r)).map (·.2)).getD 0) - 1) :: v
        else
          (r, ((inboundList h r).length : Int) - 1) :: v)
      v := rfl

theorem viewFind_cons (p : Nat × Int) (v : List (Nat × Int)) (x : Nat) :
    viewFind (p :: v) x = if p.1 = x then some p else viewFind v x := by
  unfold viewFind
  by_cases hp : p.1 = x
  · rw [List.find?_cons_of_pos _ (by simpa using hp), if_pos hp]
  · rw [List.find?_cons_of_neg _ (by simpa using hp), if_neg hp]

theorem any_eq_isSome_viewFind (v : List (Nat × Int)) (x : Nat) :
    v.any (fun p => p.1 = x) = (viewFind v x).isSome := by
  induction v with
  | nil => rfl
  | cons p ps ih =>
    rw [List.any_cons, viewFind_cons]
    by_cases hp : p.1 = x
    · simp [hp]
    · simp only [if_neg hp, ← ih]
      simp [hp]

/-- Addresses not being touched keep their view entry. -/
theorem updateViews_find_not_mem (h : CalcHeap) (toAdd : List Nat)
    (v : List (Nat × Int)) (x : Nat) (hx : x ∉ toAdd) :
    viewFind (updateViews h toAdd v) x = viewFind v x := by
  induction toAdd generalizing v with
  | nil => rfl
  | cons a rest ih =>
    have hax : a ≠ x := fun hc => hx (hc ▸ List.mem_cons_self a rest)
    have hxr : x ∉ rest := fun hc => hx (List.mem_cons_of_mem a hc)
    rw [updateViews_eq_foldl, List.foldl_cons, ← updateViews_eq_foldl]
    rw [ih _ hxr]
    split <;> rw [viewFind_cons, if_neg hax]

theorem updateViews_cons (h : CalcHeap) (a : Nat) (rest : List Nat)
    (v : List (Nat × Int)) :
    updateViews h (a :: rest) v = updateViews h rest (updateViews h [a] v) := rfl

theorem updateViews_single_find_ne (h : CalcHeap) (v : List (Nat × Int))
    (a x : Nat) (hax : a ≠ x) :
    viewFind (updateViews h [a] v) x = viewFind v x := by
  rw [updateViews_eq_foldl]
  simp only [List.foldl_cons, List.foldl_nil]
  split <;> rw [viewFind_cons, if_neg hax]

/-- A touched address gets a decremented entry (for a first touch, the global
inbound count replaces the missing entry). -/
theorem updateViews_find_mem (h : CalcHeap) (toAdd : List Nat)
    (v : List (Nat × Int)) (x : Nat) (hx : x ∈ toAdd) (hnd : toAdd.Nodup) :
    viewFind (updateViews h toAdd v) x = some (x,
      (if (viewFind v x).isSome then (((viewFind v x).map (·.2)).getD 0) - 1
       else ((inboundList h x).length : Int) - 1)) := by
  induction toAdd generalizing v with
  | nil => cases hx
  | cons a rest ih =>
    rcases List.mem_cons.mp hx with rfl | hxr
    · have hxrest : x ∉ rest := (List.nodup_cons.mp hnd).1
      rw [updateViews_cons, updateViews_find_not_mem h rest _ x hxrest]
      show viewFind (updateViews h [x] v) x = _
      rw [updateViews_eq_foldl]
      simp only [List.foldl_cons, List.foldl_nil]
      rw [any_eq_isSome_viewFind]
      by_cases hsome : (viewFind v x).isSome
      · rw [if_pos hsome, viewFind_cons, if_pos rfl, if_pos hsome]; rfl
      · rw [if_neg hsome, viewFind_cons, if_pos rfl, if_neg hsome]
    · have hax : a ≠ x := by
        rintro rfl
        exact (List.nodup_cons.mp hnd).1 hxr
      have hrest : rest.Nodup := (List.nodup_cons.mp hnd).2
      rw [updateViews_cons, ih _ hxr hrest, updateViews_single_find_ne h v a x hax]

theorem refsOf_nodup (h : CalcHeap) (HR : ∀ p ∈ h.objects, p.2.referents.Nodup)
    (u : Nat) : (refsOf h u).Nodup := by
  unfold refsOf
  cases hfind : lookupObj h u with
  | none => exact List.Pairwise.nil
  | some obj =>
    show obj.referents.Nodup
    unfold lookupObj at hfind
    cases hf : h.objects.find? (fun p => p.1 = u) with
    | none => rw [hf] at hfind; exact Option.noConfusion hfind
    | some p =>
      rw [hf] at hfind
      have hpo : p.2 = obj := Option.some.inj hfind
      exact hpo ▸ HR p (List.mem_of_find?_eq_some hf)

theorem deletedParents_insert (h : CalcHeap) (D : Finset Nat) (c x : Nat) :
    deletedParents h (insert c D) x =
      if x ∈ refsOf h c then insert c (deletedParents h D x) else deletedParents h D x := by
  unfold deletedParents
  rw [Finset.filter_insert]

theorem deletedParents_mono (h : CalcHeap) (D D' : Finset Nat) (hDD : D ⊆ D') (x : Nat) :
    deletedParents h D x ⊆ deletedParents h D' x :=
  Finset.filter_subset_filter _ hDD

theorem mem_eraseIdx_of_ne : ∀ (l : List Nat) (i : Nat) (hi : i < l.length) (x : Nat),
    x ∈ l → x ≠ l.get ⟨i, hi⟩ → x ∈ l.eraseIdx i
  | a :: l, 0, _, x, hx, hne => by
      rcases List.mem_cons.mp hx with rfl | hmem
      · exact absurd rfl hne
      · simpa [List.eraseIdx] using hmem
  | a :: l, i + 1, hi, x, hx, hne => by
      rcases List.mem_cons.mp hx with rfl | hmem
      · simp [List.eraseIdx]
      · have hi' : i < l.length := by simpa using hi
        have := mem_eraseIdx_of_ne l i hi' x hmem (by simpa using hne)
        simp [List.eraseIdx, this]

/-- The state after one deletion in `_retained_heap_calculation_iteration`
(with subtree shortcuts disabled): pop the front entry, mark it deleted, and
push its not-yet-deleted referents with updated view counts.  An address
missing from the object map has no referents, so both source branches are
covered. -/
def deleteStep (h : CalcHeap) (s : SimState) (i : Nat) (current : Nat) : SimState :=
  ⟨s.front.eraseIdx i ++ (refsOf h current).filter (fun r => r ∉ insert current s.deleted),
    updateViews h ((refsOf h current).filter (fun r => r ∉ insert current s.deleted)) s.view,
    insert current s.deleted⟩

theorem step_inv (h : CalcHeap) (S : Finset Nat) (sv : Nat → Int)
    (HR : ∀ p ∈ h.objects, p.2.referents.Nodup)
    (s : SimState) (inv : SimInv h S sv s)
    (i : Nat) (hi : i < s.front.length)
    (current : Nat) (hcur : current = s.front.get ⟨i, hi⟩)
    (hnotdel : current ∉ s.deleted)
    (hview : viewOf s current ≤ 0) :
    SimInv h S sv (deleteStep h s i current) := by
  have htoAddNodup : ((refsOf h current).filter (fun r => r ∉ insert current s.deleted)).Nodup :=
    List.Nodup.filter _ (refsOf_nodup h HR current)
  have hmem_toAdd : ∀ x, x ∈ (refsOf h current).filter (fun r => r ∉ insert current s.deleted) ↔
      (x ∈ refsOf h current ∧ x ∉ insert current s.deleted) := by
    intro x
    rw [List.mem_filter]
    simp
  have hcur_front : current ∈ s.front := hcur ▸ List.get_mem s.front i hi
  have hcur_notin_toAdd : current ∉ (refsOf h current).filter (fun r => r ∉ insert current s.deleted) := by
    rw [hmem_toAdd]
    rintro ⟨-, hc⟩
    exact hc (Finset.mem_insert_self _ _)
  have hparents' : ∀ x, deletedParents h (insert current s.deleted) x =
      if x ∈ refsOf h current then insert current (deletedParents h s.deleted x)
      else deletedParents h s.deleted x :=
    fun x => deletedParents_insert h s.deleted current x
  have hdel_eq : (deleteStep h s i current).deleted = insert current s.deleted := rfl
  have hfront_eq : (deleteStep h s i current).front =
      s.front.eraseIdx i ++ (refsOf h current).filter (fun r => r ∉ insert current s.deleted) := rfl
  have hfind_toAdd : ∀ x ∈ (refsOf h current).filter (fun r => r ∉ insert current s.deleted),
      viewFind (deleteStep h s i current).view x = some (x,
      (if (viewFind s.view x).isSome then (((viewFind s.view x).map (·.2)).getD 0) - 1
       else ((inboundList h x).length : Int) - 1)) := by
    intro x hx
    exact updateViews_find_mem h _ s.view x hx htoAddNodup
  have hfind_same : ∀ x, x ∉ (refsOf h current).filter (fun r => r ∉ insert current s.deleted) →
      viewFind (deleteStep h s i current).view x = viewFind s.view x := by
    intro x hx
    exact updateViews_find_not_mem h _ s.view x hx
  have hviewOf_same : ∀ x, x ∉ (refsOf h current).filter (fun r => r ∉ insert current s.deleted) →
      viewOf (deleteStep h s i current) x = viewOf s x := by
    intro x hx
    rw [viewOf_eq_viewFind, viewOf_eq_viewFind, hfind_same x hx]
  refine ⟨?_, ?_, ?_, ?_, ?_, ?_⟩
  · -- viewEntry
    intro x hxD'
    rw [hdel_eq] at hxD'
    have hxD : x ∉ s.deleted := fun hc => hxD' (Finset.mem_insert_of_mem hc)
    rw [hdel_eq, hparents' x]
    by_cases hxt : x ∈ (refsOf h current).filter (fun r => r ∉ insert current s.deleted)
    · rw [hfind_toAdd x hxt, if_pos ((hmem_toAdd x).mp hxt).1]
      constructor
      · intro _
        exact Or.inr ⟨current, Finset.mem_insert_self _ _⟩
      · intro _; rfl
    · have hxrefs : x ∉ refsOf h current := by
        intro hc
        exact hxt ((hmem_toAdd x).mpr ⟨hc, hxD'⟩)
      rw [hfind_same x hxt, if_neg hxrefs]
      exact inv.viewEntry x hxD
  · -- viewVal
    intro x hxD' hsome'
    rw [hdel_eq] at hxD'
    have hxD : x ∉ s.deleted := fun hc => hxD' (Finset.mem_insert_of_mem hc)
    rw [hdel_eq, hparents' x]
    by_cases hxt : x ∈ (refsOf h current).filter (fun r => r ∉ insert current s.deleted)
    · have hxrefs : x ∈ refsOf h current := ((hmem_toAdd x).mp hxt).1
      have hcur_not_par : current ∉ deletedParents h s.deleted x := by
        intro hc
        exact hnotdel (Finset.mem_of_mem_filter current hc)
      have hcard : (insert current (deletedParents h s.deleted x)).card =
          (deletedParents h s.deleted x).card + 1 :=
        Finset.card_insert_of_not_mem hcur_not_par
      rw [if_pos hxrefs, hcard, viewOf_eq_viewFind, hfind_toAdd x hxt]
      by_cases hsome : (viewFind s.view x).isSome
      · have hval := inv.viewVal x hxD hsome
        rw [viewOf_eq_viewFind] at hval
        simp only [if_pos hsome]
        show (((viewFind s.view x).map (·.2)).getD 0) - 1 = _
        rw [hval]
        push_cast
        ring
      · have hent := inv.viewEntry x hxD
        rw [iff_iff_implies_and_implies, and_comm] at hent
        have hnot : ¬ (x ∈ S ∨ (deletedParents h s.deleted x).Nonempty) := by
          intro hc
          exact hsome (hent.1 hc)
        push_neg at hnot
        have hxS : x ∉ S := hnot.1
        have hpar0 : deletedParents h s.deleted x = ∅ :=
          Finset.not_nonempty_iff_eq_empty.mp hnot.2
        simp only [if_neg hsome]
        show ((inboundList h x).length : Int) - 1 = _
        rw [hpar0]
        unfold seedInit
        rw [if_neg hxS]
        unfold inboundCard
        simp
    · rw [hviewOf_same x hxt]
      have hxrefs : x ∉ refsOf h current := by
        intro hc
        exact hxt ((hmem_toAdd x).mpr ⟨hc, hxD'⟩)
      rw [if_neg hxrefs]
      rw [hfind_same x hxt] at hsome'
      exact inv.viewVal x hxD hsome'
  · -- frontMem
    intro x hxD' hreason
    rw [hdel_eq] at hxD' hreason
    have hxD : x ∉ s.deleted := fun hc => hxD' (Finset.mem_insert_of_mem hc)
    have hxc : x ≠ current := fun hc => hxD' (hc ▸ Finset.mem_insert_self _ _)
    rw [hfront_eq, List.mem_append]
    by_cases hxrefs : x ∈ refsOf h current
    · exact Or.inr ((hmem_toAdd x).mpr ⟨hxrefs, hxD'⟩)
    · left
      have hreason' : x ∈ S ∨ (deletedParents h s.deleted x).Nonempty := by
        rcases hreason with hS | ⟨u, hu⟩
        · exact Or.inl hS
        · rw [hparents' x, if_neg hxrefs] at hu
          exact Or.inr ⟨u, hu⟩
      have hxfront : x ∈ s.front := inv.frontMem x hxD hreason'
      exact mem_eraseIdx_of_ne s.front i hi x hxfront (hcur ▸ hxc)
  · -- frontSub
    intro x hx
    rw [hfront_eq] at hx
    rw [hdel_eq]
    rcases List.mem_append.mp hx with hx1 | hx2
    · have hxfront : x ∈ s.front := List.eraseIdx_subset s.front i hx1
      rcases inv.frontSub x hxfront with hS | ⟨u, hu⟩
      · exact Or.inl hS
      · exact Or.inr ⟨u, deletedParents_mono h s.deleted _ (Finset.subset_insert _ _) x hu⟩
    · right
      refine ⟨current, ?_⟩
      unfold deletedParents
      rw [Finset.mem_filter]
      exact ⟨Finset.mem_insert_self _ _, by simpa using ((hmem_toAdd x).mp hx2).1⟩
  · -- delView
    intro x hx
    rw [hdel_eq] at hx
    rcases Finset.mem_insert.mp hx with rfl | hxD
    · rw [hviewOf_same x hcur_notin_toAdd]
      exact hview
    · have hxt : x ∉ (refsOf h current).filter (fun r => r ∉ insert current s.deleted) := by
        rw [hmem_toAdd]
        rintro ⟨-, hc⟩
        exact hc (Finset.mem_insert_of_mem hxD)
      rw [hviewOf_same x hxt]
      exact inv.delView x hxD
  · -- delOrder
    obtain ⟨ord, hnd, hset, hsup⟩ := inv.delOrder
    refine ⟨ord ++ [current], ?_, ?_, ?_⟩
    · rw [List.nodup_append]
      refine ⟨hnd, List.nodup_singleton _, ?_⟩
      intro a ha hb
      rcases List.mem_singleton.mp hb with rfl
      exact hnotdel (hset ▸ List.mem_toFinset.mpr ha)
    · rw [hdel_eq]
      ext a
      simp [hset, or_comm]
    · intro j hj
      rcases Nat.lt_or_ge j ord.length with hjl | hjr
      · have hget : (ord ++ [current]).get ⟨j, hj⟩ = ord.get ⟨j, hjl⟩ :=
          List.get_append_left _ _ _
        have htake : (ord ++ [current]).take j = ord.take j :=
          List.take_append_of_le_length (le_of_lt hjl)
        rw [hget, htake]
        exact hsup j hjl
      · have hjlen : j = ord.length := by
          have := hj
          simp only [List.length_append, List.length_singleton] at this
          omega
        subst hjlen
        have hget : (ord ++ [current]).get ⟨ord.length, hj⟩ = current := by
          rw [List.get_append_right] <;> simp
        rw [hget]
        rcases inv.frontSub current hcur_front with hS | ⟨u, hu⟩
        · exact Or.inl hS
        · right
          refine ⟨u, ?_, ?_⟩
          · rw [List.take_append_of_le_length (le_refl _), List.take_length]
            exact List.mem_toFinset.mp (hset ▸ Finset.mem_of_mem_filter u hu)
          · exact (Finset.mem_filter.mp hu).2

theorem sum_sdiff_chain (A B C : Finset Nat) (f : Nat → Nat) (hAB : A ⊆ B) (hBC : B ⊆ C) :
    (C \ A).sum f = (C \ B).sum f + (B \ A).sum f := by
  have hunion : C \ A = (C \ B) ∪ (B \ A) := by
    ext x
    simp only [Finset.mem_sdiff, Finset.mem_union]
    constructor
    · rintro ⟨hxC, hxA⟩
      by_cases hxB : x ∈ B
      · exact Or.inr ⟨hxB, hxA⟩
      · exact Or.inl ⟨hxC, hxB⟩
    · rintro (⟨hxC, hxB⟩ | ⟨hxB, hxA⟩)
      · exact ⟨hxC, fun hc => hxB (hAB hc)⟩
      · exact ⟨hBC hxB, hxA⟩
  have hdisj : Disjoint (C \ B) (B \ A) := by
    rw [Finset.disjoint_left]
    intro x hx hx'
    rw [Finset.mem_sdiff] at hx hx'
    exact hx.2 hx'.1
  rw [hunion, Finset.sum_union hdisj]

theorem insert_sdiff_self_of_not_mem (c : Nat) (D : Finset Nat) (hc : c ∉ D) :
    insert c D \ D = {c} := by
  ext x
  simp only [Finset.mem_sdiff, Finset.mem_insert, Finset.mem_singleton]
  constructor
  · rintro ⟨rfl | hxD, hnx⟩
    · rfl
    · exact absurd hxD hnx
  · rintro rfl
    exact ⟨Or.inl rfl, hc⟩

/-- When `lookupObj` succeeds, the deletion branch of the sweep is `deleteStep`. -/
theorem deleteStep_some (h : CalcHeap) (s : SimState) (i current : Nat)
    (obj : CalcObj) (hobj : lookupObj h current = some obj) :
    deleteStep h s i current =
      ⟨s.front.eraseIdx i ++ obj.referents.filter (fun r => r ∉ insert current s.deleted),
        updateViews h (obj.referents.filter (fun r => r ∉ insert current s.deleted)) s.view,
        insert current s.deleted⟩ := by
  unfold deleteStep refsOf
  rw [hobj]
  rfl

/-- When `lookupObj` fails, `deleteStep` only pops and marks deleted. -/
theorem deleteStep_none (h : CalcHeap) (s : SimState) (i current : Nat)
    (hobj : lookupObj h current = none) :
    deleteStep h s i current = ⟨s.front.eraseIdx i, s.view, insert current s.deleted⟩ := by
  unfold deleteStep refsOf
  rw [hobj]
  show SimState.mk (s.front.eraseIdx i ++ []) (updateViews h [] s.view) _ = _
  rw [List.append_nil]
  rfl

theorem sizeD_some (h : CalcHeap) (x : Nat) (obj : CalcObj)
    (hobj : lookupObj h x = some obj) : sizeD h x = obj.size := by
  unfold sizeD; rw [hobj]; rfl

theorem sizeD_none (h : CalcHeap) (x : Nat) (hobj : lookupObj h x = none) :
    sizeD h x = 0 := by
  unfold sizeD; rw [hobj]; rfl

/-- Once a sweep has deleted something, the flag stays set. -/
theorem sweepGo_hap_true (h : CalcHeap) (p1 : P1Result) (us : Bool) :
    ∀ (i : Nat) (s : SimState) (acc : Nat),
      (sweepGo h p1 us i s acc true).2.1 = true := by
  intro i
  induction i with
  | zero => intro s acc; rfl
  | succ i ih =>
    intro s acc
    unfold sweepGo
    by_cases hv : 0 < viewOf s (s.front.getD i 0)
    · rw [if_pos hv]
    · rw [if_neg hv]
      by_cases hd : s.front.getD i 0 ∈ s.deleted
      · rw [if_pos hd]; exact ih s acc
      · rw [if_neg hd]
        by_cases hsub : us ∧ s.front.getD i 0 ∈ p1.roots
        · rw [if_pos hsub]; exact ih _ _
        · rw [if_neg hsub]
          cases hobj : lookupObj h (s.front.getD i 0) with
          | some obj => exact ih _ _
          | none => exact ih _ _

/-- The sweep preserves the invariant, only grows the deleted set, adds
exactly the shallow sizes of the newly deleted addresses to the accumulator,
and reports a deletion exactly when one happened. -/
theorem sweepGo_spec (h : CalcHeap) (p1 : P1Result) (S : Finset Nat) (sv : Nat → Int)
    (HR : ∀ p ∈ h.objects, p.2.referents.Nodup) :
    ∀ (i : Nat) (s : SimState) (acc : Nat) (hap : Bool),
      SimInv h S sv s → i ≤ s.front.length →
      SimInv h S sv (sweepGo h p1 false i s acc hap).2.2 ∧
      s.deleted ⊆ (sweepGo h p1 false i s acc hap).2.2.deleted ∧
      (sweepGo h p1 false i s acc hap).1 =
        acc + ((sweepGo h p1 false i s acc hap).2.2.deleted \ s.deleted).sum (sizeD h) ∧
      ((sweepGo h p1 false i s acc hap).2.1 = false →
        (hap = false ∧ (sweepGo h p1 false i s acc hap).2.2 = s ∧
          (sweepGo h p1 false i s acc hap).1 = acc)) ∧
      ((sweepGo h p1 false i s acc hap).2.1 = true → hap = false →
        s.deleted ≠ (sweepGo h p1 false i s acc hap).2.2.deleted) := by
  intro i
  induction i with
  | zero =>
    intro s acc hap inv _
    refine ⟨inv, Finset.Subset.refl _, ?_, ?_, ?_⟩
    · show acc = acc + ((s.deleted \ s.deleted).sum (sizeD h))
      rw [Finset.sdiff_self]
      simp
    · exact fun hfa => ⟨hfa, rfl, rfl⟩
    · intro h1 h2
      have h1' : hap = true := h1
      rw [h2] at h1'
      exact absurd h1' (by simp)
  | succ i ih =>
    intro s acc hap inv hlen
    have hi : i < s.front.length := hlen
    have hgetD : s.front.getD i 0 = s.front.get ⟨i, hi⟩ := by
      rw [List.getD_eq_getElem s.front 0 hi]
      rfl
    unfold sweepGo
    by_cases hv : 0 < viewOf s (s.front.getD i 0)
    · rw [if_pos hv]
      refine ⟨inv, Finset.Subset.refl _, ?_, ?_, ?_⟩
      · show acc = acc + ((s.deleted \ s.deleted).sum (sizeD h))
        rw [Finset.sdiff_self]
        simp
      · exact fun hfa => ⟨hfa, rfl, rfl⟩
      · intro h1 h2
        have h1' : hap = true := h1
        rw [h2] at h1'
        exact absurd h1' (by simp)
    · rw [if_neg hv]
      by_cases hd : s.front.getD i 0 ∈ s.deleted
      · rw [if_pos hd]
        exact ih s acc hap inv (le_of_lt hi)
      · rw [if_neg hd]
        simp only [Bool.false_eq_true, false_and, if_false]
        have hstep : SimInv h S sv (deleteStep h s i (s.front.getD i 0)) :=
          step_inv h S sv HR s inv i hi (s.front.getD i 0) hgetD hd (le_of_not_lt hv)
        have hlen2 : i ≤ (deleteStep h s i (s.front.getD i 0)).front.length := by
          show i ≤ (s.front.eraseIdx i ++ _).length
          rw [List.length_append, List.length_eraseIdx_of_lt hi]
          omega
        have hsub2 : s.deleted ⊆ (deleteStep h s i (s.front.getD i 0)).deleted :=
          Finset.subset_insert _ _
        have hdel2 : (deleteStep h s i (s.front.getD i 0)).deleted \ s.deleted
            = {s.front.getD i 0} :=
          insert_sdiff_self_of_not_mem _ _ hd
        split
        · rename_i obj hobj
          have heq : (⟨(s.front.eraseIdx i) ++
              obj.referents.filter (fun r => r ∉ insert (s.front.getD i 0) s.deleted),
              updateViews h (obj.referents.filter
                (fun r => r ∉ insert (s.front.getD i 0) s.deleted)) s.view,
              insert (s.front.getD i 0) s.deleted⟩ : SimState) =
              deleteStep h s i (s.front.getD i 0) :=
            (deleteStep_some h s i (s.front.getD i 0) obj hobj).symm
          rw [heq]
          obtain ⟨hInv', hsub', hacc', hfalse', hne'⟩ :=
            ih (deleteStep h s i (s.front.getD i 0)) (acc + obj.size) true hstep hlen2
          refine ⟨hInv', Finset.Subset.trans hsub2 hsub', ?_, ?_, ?_⟩
          · rw [hacc']
            rw [sum_sdiff_chain s.deleted (deleteStep h s i (s.front.getD i 0)).deleted
              _ (sizeD h) hsub2 hsub', hdel2, Finset.sum_singleton,
              sizeD_some h _ obj hobj]
            ring
          · intro hfr
            rw [sweepGo_hap_true h p1 false i _ (acc + obj.size)] at hfr
            exact absurd hfr (by simp)
          · intro _ _
            intro hc
            have : s.front.getD i 0 ∈ s.deleted := by
              rw [hc]
              exact hsub' (Finset.mem_insert_self _ _)
            exact hd this
        · rename_i hobj
          have heq : (⟨s.front.eraseIdx i, s.view, insert (s.front.getD i 0) s.deleted⟩
              : SimState) = deleteStep h s i (s.front.getD i 0) :=
            (deleteStep_none h s i (s.front.getD i 0) hobj).symm
          rw [heq]
          obtain ⟨hInv', hsub', hacc', hfalse', hne'⟩ :=
            ih (deleteStep h s i (s.front.getD i 0)) acc true hstep hlen2
          refine ⟨hInv', Finset.Subset.trans hsub2 hsub', ?_, ?_, ?_⟩
          · rw [hacc']
            rw [sum_sdiff_chain s.deleted (deleteStep h s i (s.front.getD i 0)).deleted
              _ (sizeD h) hsub2 hsub', hdel2, Finset.sum_singleton,
              sizeD_none h _ hobj]
            ring
          · intro hfr
            rw [sweepGo_hap_true h p1 false i _ acc] at hfr
            exact absurd hfr (by simp)
          · intro _ _
            intro hc
            have : s.front.getD i 0 ∈ s.deleted := by
              rw [hc]
              exact hsub' (Finset.mem_insert_self _ _)
            exact hd this

/-- The invariant only constrains the front through membership, so it is
stable under permutations (in particular the sort). -/
theorem simInv_perm (h : CalcHeap) (S : Finset Nat) (sv : Nat → Int)
    (s : SimState) (inv : SimInv h S sv s) (front' : List Nat)
    (hp : s.front.Perm front') : SimInv h S sv ⟨front', s.view, s.deleted⟩ := by
  refine ⟨inv.viewEntry, inv.viewVal, ?_, ?_, inv.delView, inv.delOrder⟩
  · intro x hx hr
    exact hp.mem_iff.mp (inv.frontMem x hx hr)
  · intro x hx
    exact inv.frontSub x (hp.mem_iff.mpr hx)

/-- A sweep over a descending-sorted front that deletes nothing certifies that
every front address up to the start index is already deleted or still has a
positive view count. -/
theorem sweepGo_stop (h : CalcHeap) (p1 : P1Result) (s : SimState)
    (hsorted : SortedDesc (viewOf s) s.front) :
    ∀ (i : Nat) (acc : Nat), i ≤ s.front.length →
      (sweepGo h p1 false i s acc false).2.1 = false →
      ∀ j, j < i → ∀ (hj : j < s.front.length),
        s.front.get ⟨j, hj⟩ ∈ s.deleted ∨ 0 < viewOf s (s.front.get ⟨j, hj⟩) := by
  intro i
  induction i with
  | zero => intro acc _ _ j hj; omega
  | succ i ih =>
    intro acc hlen hres j hji hj
    have hi : i < s.front.length := hlen
    have hgetD : s.front.getD i 0 = s.front.get ⟨i, hi⟩ := by
      rw [List.getD_eq_getElem s.front 0 hi]
      rfl
    unfold sweepGo at hres
    by_cases hv : 0 < viewOf s (s.front.getD i 0)
    · -- break: everything at index ≤ i has positive view by sortedness
      right
      have hmono := List.pairwise_iff_get.mp hsorted
      rcases Nat.lt_or_ge j i with hlt | hge
      · have := hmono ⟨j, hj⟩ ⟨i, hi⟩ hlt
        rw [hgetD] at hv
        omega
      · have hji2 : j = i := by omega
        subst hji2
        rw [hgetD] at hv
        exact hv
    · rw [if_neg hv] at hres
      by_cases hd : s.front.getD i 0 ∈ s.deleted
      · rw [if_pos hd] at hres
        rcases Nat.lt_or_ge j i with hlt | hge
        · exact ih acc (le_of_lt hi) hres j hlt hj
        · have hji2 : j = i := by omega
          subst hji2
          left
          rw [← hgetD]
          exact hd
      · rw [if_neg hd] at hres
        simp only [Bool.false_eq_true, false_and, if_false] at hres
        exfalso
        rcases hlook : lookupObj h (s.front.getD i 0) with - | obj
        · rw [hlook] at hres
          rw [sweepGo_hap_true h p1 false i _ acc] at hres
          exact absurd hres (by simp)
        · rw [hlook] at hres
          rw [sweepGo_hap_true h p1 false i _ _] at hres
          exact absurd hres (by simp)

theorem retainedHeap0_succ (h : CalcHeap) (p1 : P1Result) (us : Bool)
    (fuel : Nat) (s : SimState) (acc : Nat) :
    retainedHeap0 h p1 us (fuel + 1) s acc =
      (if (sweepGo h p1 us (sortDesc (viewOf s) s.front).length
            ⟨sortDesc (viewOf s) s.front, s.view, s.deleted⟩ 0 false).2.1 = true
       then retainedHeap0 h p1 us fuel
         (sweepGo h p1 us (sortDesc (viewOf s) s.front).length
            ⟨sortDesc (viewOf s) s.front, s.view, s.deleted⟩ 0 false).2.2
         (acc + (sweepGo h p1 us (sortDesc (viewOf s) s.front).length
            ⟨sortDesc (viewOf s) s.front, s.view, s.deleted⟩ 0 false).1)
       else some (acc, (sweepGo h p1 us (sortDesc (viewOf s) s.front).length
            ⟨sortDesc (viewOf s) s.front, s.view, s.deleted⟩ 0 false).2.2)) := rfl

/-- The outer loop of `_retained_heap0`: if it terminates, the invariant holds
in the final state, the result counts the shallow sizes of exactly the newly
deleted addresses, and every front address is deleted or has a positive view
count (nothing else was deletable). -/
theorem retainedHeap0_spec (h : CalcHeap) (p1 : P1Result) (S : Finset Nat)
    (sv : Nat → Int) (HR : ∀ p ∈ h.objects, p.2.referents.Nodup) :
    ∀ (fuel : Nat) (s : SimState) (acc : Nat) (r : Nat × SimState),
      retainedHeap0 h p1 false fuel s acc = some r → SimInv h S sv s →
      SimInv h S sv r.2 ∧ s.deleted ⊆ r.2.deleted ∧
      r.1 = acc + (r.2.deleted \ s.deleted).sum (sizeD h) ∧
      (∀ x ∈ r.2.front, x ∈ r.2.deleted ∨ 0 < viewOf r.2 x) := by
  intro fuel
  induction fuel with
  | zero => intro s acc r hr; exact absurd hr (by simp [retainedHeap0])
  | succ fuel ih =>
    intro s acc r hr inv
    rw [retainedHeap0_succ] at hr
    have hsortperm : s.front.Perm (sortDesc (viewOf s) s.front) :=
      (sortDesc_perm (viewOf s) s.front).symm
    have hinv' : SimInv h S sv ⟨sortDesc (viewOf s) s.front, s.view, s.deleted⟩ :=
      simInv_perm h S sv s inv _ hsortperm
    have hlen' : (sortDesc (viewOf s) s.front).length ≤
        (⟨sortDesc (viewOf s) s.front, s.view, s.deleted⟩ : SimState).front.length :=
      le_refl _
    obtain ⟨hInv1, hsub1, hacc1, hfalse1, -⟩ :=
      sweepGo_spec h p1 S sv HR (sortDesc (viewOf s) s.front).length
        ⟨sortDesc (viewOf s) s.front, s.view, s.deleted⟩ 0 false hinv' hlen'
    by_cases hb : (sweepGo h p1 false (sortDesc (viewOf s) s.front).length
        ⟨sortDesc (viewOf s) s.front, s.view, s.deleted⟩ 0 false).2.1 = true
    · rw [if_pos hb] at hr
      obtain ⟨hInv2, hsub2, hacc2, hfinal2⟩ := ih _ _ r hr hInv1
      refine ⟨hInv2, ?_, ?_, hfinal2⟩
      · exact Finset.Subset.trans hsub1 hsub2
      · rw [hacc2, hacc1]
        rw [sum_sdiff_chain s.deleted _ r.2.deleted (sizeD h) hsub1 hsub2]
        ring
    · rw [if_neg hb] at hr
      have hr2 : r = (acc, (sweepGo h p1 false (sortDesc (viewOf s) s.front).length
          ⟨sortDesc (viewOf s) s.front, s.view, s.deleted⟩ 0 false).2.2) :=
        (Option.some.inj hr).symm
      obtain ⟨-, hseq, -⟩ := hfalse1 (by simpa using hb)
      subst hr2
      rw [hseq]
      refine ⟨hinv', Finset.Subset.refl _, ?_, ?_⟩
      · show acc = acc + ((s.deleted \ s.deleted).sum (sizeD h))
        rw [Finset.sdiff_self]
        simp
      · -- the termination certificate from the clean sweep
        intro x hx
        have hsorted : SortedDesc (viewOf ⟨sortDesc (viewOf s) s.front, s.view, s.deleted⟩)
            (sortDesc (viewOf s) s.front) := by
          have : viewOf (⟨sortDesc (viewOf s) s.front, s.view, s.deleted⟩ : SimState) =
              viewOf s := rfl
          rw [this]
          exact sortDesc_sorted (viewOf s) s.front
        have hstop := sweepGo_stop h p1
          ⟨sortDesc (viewOf s) s.front, s.view, s.deleted⟩ hsorted
          (sortDesc (viewOf s) s.front).length 0 hlen'
          (by simpa using hb)
        obtain ⟨⟨j, hj⟩, hget⟩ := List.mem_iff_get.mp hx
        have := hstop j hj hj
        rw [hget] at this
        exact this

/-! ### Termination of the simulated deletion -/

/-- All addresses a simulation can ever involve. -/
def simUniverse (h : CalcHeap) (s : SimState) : Finset Nat :=
  s.front.toFinset ∪ s.deleted ∪ allRefs h

theorem simUniverse_deleteStep (h : CalcHeap) (s : SimState) (i current : Nat)
    (hcur : current ∈ s.front) :
    simUniverse h (deleteStep h s i current) ⊆ simUniverse h s := by
  intro x hx
  unfold simUniverse at hx ⊢
  simp only [Finset.mem_union, List.mem_toFinset] at hx ⊢
  rcases hx with (hf | hd) | ha
  · rcases List.mem_append.mp hf with h1 | h2
    · exact Or.inl (Or.inl (List.eraseIdx_subset s.front i h1))
    · exact Or.inr (refsOf_subset_allRefs h current x (List.mem_of_mem_filter h2))
  · rcases Finset.mem_insert.mp hd with rfl | hd2
    · exact Or.inl (Or.inl hcur)
    · exact Or.inl (Or.inr hd2)
  · exact Or.inr ha

theorem sweepGo_universe (h : CalcHeap) (p1 : P1Result) (us : Bool) :
    ∀ (i : Nat) (s : SimState) (acc : Nat) (hap : Bool), i ≤ s.front.length →
      simUniverse h (sweepGo h p1 us i s acc hap).2.2 ⊆ simUniverse h s := by
  intro i
  induction i with
  | zero => intro s acc hap _; exact Finset.Subset.refl _
  | succ i ih =>
    intro s acc hap hlen
    have hi : i < s.front.length := hlen
    have hcurmem : s.front.getD i 0 ∈ s.front := by
      rw [List.getD_eq_getElem s.front 0 hi]
      exact List.get_mem s.front i hi
    have hlen1 : i ≤ (s.front.eraseIdx i).length := by
      rw [List.length_eraseIdx_of_lt hi]; omega
    unfold sweepGo
    by_cases hv : 0 < viewOf s (s.front.getD i 0)
    · rw [if_pos hv]
    · rw [if_neg hv]
      by_cases hd : s.front.getD i 0 ∈ s.deleted
      · rw [if_pos hd]; exact ih s acc hap (le_of_lt hi)
      · rw [if_neg hd]
        by_cases hsub : us = true ∧ s.front.getD i 0 ∈ p1.roots
        · rw [if_pos hsub]
          refine Finset.Subset.trans (ih _ _ _ hlen1) ?_
          intro x hx
          unfold simUniverse at hx ⊢
          simp only [Finset.mem_union, List.mem_toFinset] at hx ⊢
          rcases hx with (hf | hdel) | ha
          · exact Or.inl (Or.inl (List.eraseIdx_subset s.front i hf))
          · rcases Finset.mem_insert.mp hdel with rfl | hd2
            · exact Or.inl (Or.inl hcurmem)
            · exact Or.inl (Or.inr hd2)
          · exact Or.inr ha
        · rw [if_neg hsub]
          split
          · rename_i obj hobj
            have heq : (⟨(s.front.eraseIdx i) ++
                obj.referents.filter (fun r => r ∉ insert (s.front.getD i 0) s.deleted),
                updateViews h (obj.referents.filter
                  (fun r => r ∉ insert (s.front.getD i 0) s.deleted)) s.view,
                insert (s.front.getD i 0) s.deleted⟩ : SimState) =
                deleteStep h s i (s.front.getD i 0) :=
              (deleteStep_some h s i (s.front.getD i 0) obj hobj).symm
            rw [heq]
            have hlen2 : i ≤ (deleteStep h s i (s.front.getD i 0)).front.length := by
              show i ≤ (s.front.eraseIdx i ++ _).length
              rw [List.length_append, List.length_eraseIdx_of_lt hi]
              omega
            exact Finset.Subset.trans (ih _ _ _ hlen2)
              (simUniverse_deleteStep h s i _ hcurmem)
          · rename_i hobj
            have heq : (⟨s.front.eraseIdx i, s.view, insert (s.front.getD i 0) s.deleted⟩
                : SimState) = deleteStep h s i (s.front.getD i 0) :=
              (deleteStep_none h s i (s.front.getD i 0) hobj).symm
            rw [heq]
            have hlen2 : i ≤ (deleteStep h s i (s.front.getD i 0)).front.length := by
              rw [← heq]
              exact hlen1
            exact Finset.Subset.trans (ih _ _ _ hlen2)
              (simUniverse_deleteStep h s i _ hcurmem)

theorem sweepGo_deleted_mono (h : CalcHeap) (p1 : P1Result) (us : Bool) :
    ∀ (i : Nat) (s : SimState) (acc : Nat) (hap : Bool),
      s.deleted ⊆ (sweepGo h p1 us i s acc hap).2.2.deleted := by
  intro i
  induction i with
  | zero => intro s acc hap; exact Finset.Subset.refl _
  | succ i ih =>
    intro s acc hap
    unfold sweepGo
    by_cases hv : 0 < viewOf s (s.front.getD i 0)
    · rw [if_pos hv]
    · rw [if_neg hv]
      by_cases hd : s.front.getD i 0 ∈ s.deleted
      · rw [if_pos hd]; exact ih s acc hap
      · rw [if_neg hd]
        by_cases hsub : us = true ∧ s.front.getD i 0 ∈ p1.roots
        · rw [if_pos hsub]
          refine Finset.Subset.trans (Finset.subset_insert (s.front.getD i 0) s.deleted) ?_
          exact ih ⟨_, _, _⟩ _ _
        · rw [if_neg hsub]
          split
          · refine Finset.Subset.trans (Finset.subset_insert (s.front.getD i 0) s.deleted) ?_
            exact ih ⟨_, _, _⟩ _ _
          · refine Finset.Subset.trans (Finset.subset_insert (s.front.getD i 0) s.deleted) ?_
            exact ih ⟨_, _, _⟩ _ _

theorem sweepGo_progress (h : CalcHeap) (p1 : P1Result) (us : Bool) :
    ∀ (i : Nat) (s : SimState) (acc : Nat),
      (sweepGo h p1 us i s acc false).2.1 = true →
      s.deleted ⊂ (sweepGo h p1 us i s acc false).2.2.deleted := by
  intro i
  induction i with
  | zero => intro s acc hc; exact absurd hc (by simp [sweepGo])
  | succ i ih =>
    intro s acc hc
    unfold sweepGo at hc ⊢
    by_cases hv : 0 < viewOf s (s.front.getD i 0)
    · rw [if_pos hv] at hc; exact absurd hc (by simp)
    · rw [if_neg hv] at hc ⊢
      by_cases hd : s.front.getD i 0 ∈ s.deleted
      · rw [if_pos hd] at hc ⊢; exact ih s acc hc
      · rw [if_neg hd] at hc ⊢
        have hbase : ∀ t : SimState, t.deleted = insert (s.front.getD i 0) s.deleted →
            ∀ (acc2 : Nat), s.deleted ⊂ (sweepGo h p1 us i t acc2 true).2.2.deleted := by
          intro t ht acc2
          refine Finset.ssubset_of_ssubset_of_subset ?_
            (ht ▸ sweepGo_deleted_mono h p1 us i t acc2 true)
          exact Finset.ssubset_insert hd
        by_cases hsub : us = true ∧ s.front.getD i 0 ∈ p1.roots
        · rw [if_pos hsub]
          exact hbase _ rfl _
        · rw [if_neg hsub]
          split
          · exact hbase _ rfl _
          · exact hbase _ rfl _

theorem toFinset_perm (l l' : List Nat) (hp : l.Perm l') : l.toFinset = l'.toFinset := by
  ext x
  simp [hp.mem_iff]

/-- With fuel exceeding the number of addresses in play, the outer loop
terminates. -/
theorem retainedHeap0_total (h : CalcHeap) (p1 : P1Result) :
    ∀ (fuel : Nat) (s : SimState) (acc : Nat),
      (simUniverse h s).card < fuel + s.deleted.card →
      (retainedHeap0 h p1 false fuel s acc).isSome := by
  intro fuel
  induction fuel with
  | zero =>
    intro s acc hcard
    exfalso
    have : s.deleted ⊆ simUniverse h s := by
      intro x hx
      unfold simUniverse
      simp only [Finset.mem_union]
      exact Or.inl (Or.inr hx)
    have := Finset.card_le_card this
    omega
  | succ fuel ih =>
    intro s acc hcard
    rw [retainedHeap0_succ]
    by_cases hb : (sweepGo h p1 false (sortDesc (viewOf s) s.front).length
        ⟨sortDesc (viewOf s) s.front, s.view, s.deleted⟩ 0 false).2.1 = true
    · rw [if_pos hb]
      set s' : SimState := ⟨sortDesc (viewOf s) s.front, s.view, s.deleted⟩ with hs'
      have hUeq : simUniverse h s' = simUniverse h s := by
        unfold simUniverse
        rw [toFinset_perm _ _ ((sortDesc_perm (viewOf s) s.front))]
      have hssub : s'.deleted ⊂ (sweepGo h p1 false (sortDesc (viewOf s) s.front).length
          s' 0 false).2.2.deleted :=
        sweepGo_progress h p1 false _ s' 0 hb
      have hU : simUniverse h ((sweepGo h p1 false (sortDesc (viewOf s) s.front).length
          s' 0 false).2.2) ⊆ simUniverse h s' :=
        sweepGo_universe h p1 false _ s' 0 false (le_refl _)
      apply ih
      have h1 : ((sweepGo h p1 false (sortDesc (viewOf s) s.front).length
          s' 0 false).2.2).deleted.card ≥ s.deleted.card + 1 := by
        have := Finset.card_lt_card hssub
        show _ ≥ s'.deleted.card + 1
        omega
      have h2 := Finset.card_le_card hU
      rw [hUeq] at h2
      omega
    · rw [if_neg hb]
      rfl

/-! ## Phase-1 invariants (`_find_strict_subtrees`)

Soundness of the strict-subtree collapse: every admitted root lies in the
object map, has at most one inbound reference, its referents were admitted
strictly earlier, and its stored retained size satisfies
`size + sum of the referents' stored retained sizes`. -/

/-- The admitted roots in admission order: each root's referents appear
strictly earlier, each root is an object with at most one inbound
reference. -/
def P1Region (h : CalcHeap) (L : List Nat) : Prop :=
  ∀ i (hi : i < L.length), (L.get ⟨i, hi⟩) ∈ h.objects.map (·.1) ∧
    inboundCard h (L.get ⟨i, hi⟩) ≤ 1 ∧
    ∀ r ∈ refsOf h (L.get ⟨i, hi⟩), r ∈ L.take i

/-- The stored retained sizes satisfy the subtree equation. -/
def P1ValsOk (h : CalcHeap) (L : List Nat) (vals : List (Nat × Nat)) : Prop :=
  ∀ a ∈ L, lookupVal vals a = some (sizeD h a + ((refsOf h a).map (valueD vals)).sum)

def P1Inv (h : CalcHeap) (st : P1Result) : Prop :=
  ∃ L : List Nat, L.Nodup ∧ st.roots = L.toFinset ∧ P1Region h L ∧ P1ValsOk h L st.vals

theorem lookupVal_cons (p : Nat × Nat) (vals : List (Nat × Nat)) (a : Nat) :
    lookupVal (p :: vals) a = if p.1 = a then some p.2 else lookupVal vals a := by
  unfold lookupVal
  by_cases hp : p.1 = a
  · rw [List.find?_cons_of_pos _ (by simpa using hp), if_pos hp]
    rfl
  · rw [List.find?_cons_of_neg _ (by simpa using hp), if_neg hp]

theorem valueD_congr_lookup (vals vals' : List (Nat × Nat)) (b : Nat)
    (hne : lookupVal vals' b = lookupVal vals b) : valueD vals' b = valueD vals b := by
  unfold valueD
  rw [hne]

theorem p1ValsOk_congr (h : CalcHeap) (L : List Nat) (vals vals' : List (Nat × Nat))
    (heq : ∀ a, lookupVal vals' a = lookupVal vals a)
    (hok : P1ValsOk h L vals) : P1ValsOk h L vals' := by
  intro a ha
  rw [heq a, hok a ha]
  have hmap : (refsOf h a).map (valueD vals') = (refsOf h a).map (valueD vals) :=
    List.map_congr_left (fun r _ => valueD_congr_lookup vals vals' r (heq r))
  rw [hmap]

theorem find?_key_eq_of_mem_nodup (l : List (Nat × CalcObj))
    (HK : (l.map (·.1)).Nodup) (p : Nat × CalcObj) (hp : p ∈ l) :
    l.find? (fun q => q.1 = p.1) = some p := by
  induction l with
  | nil => cases hp
  | cons q qs ih =>
    rcases List.mem_cons.mp hp with rfl | hp2
    · rw [List.find?_cons_of_pos _ (by simp)]
    · have hq : q.1 ≠ p.1 := by
        intro hc
        rw [List.map_cons, List.nodup_cons] at HK
        exact HK.1 (hc ▸ List.mem_map_of_mem (·.1) hp2)
      rw [List.find?_cons_of_neg _ (by simpa using hq)]
      exact ih (by rw [List.map_cons, List.nodup_cons] at HK; exact HK.2) hp2

theorem lookupObj_eq_of_mem (h : CalcHeap) (HK : (h.objects.map (·.1)).Nodup)
    (p : Nat × CalcObj) (hp : p ∈ h.objects) : lookupObj h p.1 = some p.2 := by
  unfold lookupObj
  rw [find?_key_eq_of_mem_nodup h.objects HK p hp]
  rfl

theorem lookupObj_some_mem_keys (h : CalcHeap) (c : Nat) (obj : CalcObj)
    (hc : lookupObj h c = some obj) : c ∈ h.objects.map (·.1) := by
  unfold lookupObj at hc
  cases hf : h.objects.find? (fun p => p.1 = c) with
  | none => rw [hf] at hc; exact Option.noConfusion hc
  | some p =>
    have hp1 : p.1 = c := by simpa using List.find?_some hf
    exact hp1 ▸ List.mem_map_of_mem (·.1) (List.mem_of_find?_eq_some hf)

/-- Both admission sites of Phase 1 preserve the invariant: either the address
is new (appended to the admission order), or it is re-admitted and the stored
value is rewritten to its current value. -/
theorem p1_admit (h : CalcHeap) (st : P1Result) (inv : P1Inv h st)
    (c : Nat) (obj : CalcObj) (hc : lookupObj h c = some obj)
    (hinb : inboundCard h c ≤ 1)
    (hrefs : ∀ r ∈ obj.referents, r ∈ st.roots) :
    P1Inv h ⟨insert c st.roots,
      (c, obj.size + (obj.referents.map (valueD st.vals)).sum) :: st.vals⟩ := by
  obtain ⟨L, hnd, hroots, hreg, hvals⟩ := inv
  have hrefsOf : refsOf h c = obj.referents := by
    unfold refsOf; rw [hc]; rfl
  have hsize : sizeD h c = obj.size := sizeD_some h c obj hc
  by_cases hcL : c ∈ L
  · -- re-admission: the stored value is unchanged, the region is unchanged
    have hold := hvals c hcL
    have hvnew : obj.size + (obj.referents.map (valueD st.vals)).sum =
        sizeD h c + ((refsOf h c).map (valueD st.vals)).sum := by
      rw [hrefsOf, hsize]
    have hlook : ∀ a, lookupVal ((c, obj.size +
        (obj.referents.map (valueD st.vals)).sum) :: st.vals) a = lookupVal st.vals a := by
      intro a
      rw [lookupVal_cons]
      by_cases hca : c = a
      · subst hca
        rw [if_pos rfl, hold, hvnew]
      · rw [if_neg hca]
    refine ⟨L, hnd, ?_, hreg, ?_⟩
    · show insert c st.roots = L.toFinset
      rw [hroots, Finset.insert_eq_self.mpr (List.mem_toFinset.mpr hcL)]
    · exact p1ValsOk_congr h L st.vals _ hlook hvals
  · -- first admission: append to the admission order
    have hlookup_ne : ∀ b, b ∈ L → lookupVal ((c, obj.size +
        (obj.referents.map (valueD st.vals)).sum) :: st.vals) b = lookupVal st.vals b := by
      intro b hb
      rw [lookupVal_cons, if_neg ?_]
      intro hcb
      have hcb' : c = b := hcb
      exact hcL (by rw [hcb']; exact hb)
    have hvalueD_ne : ∀ b, b ∈ L → valueD ((c, obj.size +
        (obj.referents.map (valueD st.vals)).sum) :: st.vals) b = valueD st.vals b :=
      fun b hb => valueD_congr_lookup st.vals _ b (hlookup_ne b hb)
    refine ⟨L ++ [c], ?_, ?_, ?_, ?_⟩
    · rw [List.nodup_append]
      refine ⟨hnd, List.nodup_singleton _, ?_⟩
      intro a ha hb
      rw [List.mem_singleton] at hb
      subst hb
      exact hcL ha
    · rw [hroots]
      ext a
      simp [or_comm]
    · intro j hj
      rcases Nat.lt_or_ge j L.length with hjl | hjr
      · have hget : (L ++ [c]).get ⟨j, hj⟩ = L.get ⟨j, hjl⟩ := List.get_append_left _ _ _
        have htake : (L ++ [c]).take j = L.take j :=
          List.take_append_of_le_length (le_of_lt hjl)
        rw [hget, htake]
        exact hreg j hjl
      · have hjlen : j = L.length := by
          have := hj
          simp only [List.length_append, List.length_singleton] at this
          omega
        subst hjlen
        have hget : (L ++ [c]).get ⟨L.length, hj⟩ = c := by
          rw [List.get_append_right] <;> simp
        rw [hget]
        refine ⟨lookupObj_some_mem_keys h c obj hc, hinb, ?_⟩
        intro r hr
        rw [List.take_append_of_le_length (le_refl _), List.take_length]
        rw [hrefsOf] at hr
        have hcroots : r ∈ st.roots := hrefs r hr
        exact List.mem_toFinset.mp (hroots ▸ hcroots)
    · intro a ha
      rcases List.mem_append.mp ha with haL | hac
      · rw [hlookup_ne a haL, hvals a haL]
        have hsubrefs : ∀ r ∈ refsOf h a, r ∈ L := by
          obtain ⟨⟨j, hj⟩, hgetj⟩ := List.mem_iff_get.mp haL
          intro r hr
          have := (hreg j hj).2.2 r (hgetj ▸ hr)
          exact List.mem_of_mem_take this
        have hmap : (refsOf h a).map (valueD ((c, obj.size +
            (obj.referents.map (valueD st.vals)).sum) :: st.vals)) =
            (refsOf h a).map (valueD st.vals) :=
          List.map_congr_left (fun r hr => hvalueD_ne r (hsubrefs r hr))
        rw [hmap]
      · rw [List.mem_singleton] at hac
        subst hac
        rw [lookupVal_cons, if_pos rfl, hrefsOf, hsize]
        have hmap : obj.referents.map (valueD ((a, obj.size +
            (obj.referents.map (valueD st.vals)).sum) :: st.vals)) =
            obj.referents.map (valueD st.vals) := by
          refine List.map_congr_left ?_
          intro r hr
          exact hvalueD_ne r (List.mem_toFinset.mp (hroots ▸ hrefs r hr))
        rw [hmap]

/-! ### Phase 1 computes states satisfying the invariant -/

theorem p1Inv_empty (h : CalcHeap) : P1Inv h ⟨∅, []⟩ :=
  ⟨[], List.nodup_nil, by simp, fun i hi => absurd hi (by simp), fun a ha => absurd ha (by simp)⟩

theorem p1InitStep_inv (h : CalcHeap) (HK : (h.objects.map (·.1)).Nodup)
    (st : P1Result × Finset Nat) (p : Nat × CalcObj) (hp : p ∈ h.objects)
    (inv : P1Inv h st.1) : P1Inv h (p1InitStep h st p).1 := by
  unfold p1InitStep
  by_cases hcond : p.2.referents = [] ∧ (inboundList h p.1).length < 2
  · rw [if_pos hcond]
    have hadmit := p1_admit h st.1 inv p.1 p.2 (lookupObj_eq_of_mem h HK p hp)
      (by unfold inboundCard; omega) (by rw [hcond.1]; intro r hr; cases hr)
    have hval : p.2.size + ((p.2.referents.map (valueD st.1.vals)).sum) = p.2.size := by
      rw [hcond.1]
      simp
    rw [hval] at hadmit
    exact hadmit
  · rw [if_neg hcond]
    exact inv

theorem p1Init_foldl_inv (h : CalcHeap) (HK : (h.objects.map (·.1)).Nodup) :
    ∀ (l : List (Nat × CalcObj)), (∀ p ∈ l, p ∈ h.objects) →
    ∀ (st : P1Result × Finset Nat), P1Inv h st.1 →
    P1Inv h (l.foldl (p1InitStep h) st).1 := by
  intro l
  induction l with
  | nil => intro _ st inv; exact inv
  | cons p rest ih =>
    intro hsub st inv
    rw [List.foldl_cons]
    exact ih (fun q hq => hsub q (List.mem_cons_of_mem p hq)) _
      (p1InitStep_inv h HK st p (hsub p (List.mem_cons_self p rest)) inv)

theorem p1Init_inv (h : CalcHeap) (HK : (h.objects.map (·.1)).Nodup) :
    P1Inv h (p1Init h).1 :=
  p1Init_foldl_inv h HK h.objects (fun _ hp => hp) _ (p1Inv_empty h)

theorem p1Pass_inv (h : CalcHeap) :
    ∀ (front : List Nat) (st : P1Result) (next : Finset Nat),
      P1Inv h st → P1Inv h (p1Pass h front st next).1 := by
  intro front
  induction front with
  | nil => intro st next inv; exact inv
  | cons current rest ih =>
    intro st next inv
    unfold p1Pass
    split
    · exact ih st next inv
    · rename_i obj hobj
      by_cases hinb : 1 < (inboundList h current).length
      · rw [if_pos hinb]
        exact ih st next inv
      · rw [if_neg hinb]
        by_cases hany : obj.referents.any (fun r => r ∉ st.roots)
        · rw [if_pos hany]
          exact ih st _ inv
        · rw [if_neg hany]
          refine ih _ _ ?_
          refine p1_admit h st inv current obj hobj (by unfold inboundCard; omega) ?_
          intro r hr
          by_contra hc
          rw [List.any_eq_true] at hany
          exact hany ⟨r, hr, by simpa using hc⟩

theorem p1Loop_inv (h : CalcHeap) :
    ∀ (fuel : Nat) (front : Finset Nat) (st : P1Result) (res : P1Result),
      p1Loop h fuel front st = some res → P1Inv h st → P1Inv h res := by
  intro fuel
  induction fuel with
  | zero => intro front st res hres; exact absurd hres (by simp [p1Loop])
  | succ fuel ih =>
    intro front st res hres inv
    unfold p1Loop at hres
    by_cases hempty : front = ∅
    · rw [if_pos hempty] at hres
      rw [← Option.some.inj hres]
      exact inv
    · rw [if_neg hempty] at hres
      rcases hp : p1Pass h (h.keys.filter (· ∈ front)) st ∅ with ⟨st', next⟩
      simp only [hp] at hres
      have hpass : P1Inv h st' := by
        have := p1Pass_inv h (h.keys.filter (· ∈ front)) st ∅ inv
        rw [hp] at this
        exact this
      by_cases hfix : front = next
      · rw [if_pos hfix] at hres
        rw [← Option.some.inj hres]
        exact hpass
      · rw [if_neg hfix] at hres
        exact ih _ _ res hres hpass

theorem findStrictSubtrees_inv (h : CalcHeap) (HK : (h.objects.map (·.1)).Nodup)
    (fuel : Nat) (st : P1Result) (hst : findStrictSubtrees h fuel = some st) :
    P1Inv h st := by
  unfold findStrictSubtrees at hst
  exact p1Loop_inv h fuel _ _ st hst (p1Init_inv h HK)

/-! ## Reachability over the object graph and the strict-subtree region

For an admitted root `o`, the set of addresses the simulated deletion removes
is exactly the set reachable from `o` through referents, and its total shallow
size is the Phase-1 retained size. -/

inductive Reach (h : CalcHeap) : Nat → Nat → Prop
  | refl (a : Nat) : Reach h a a
  | tail {a b c : Nat} : Reach h a b → c ∈ refsOf h b → Reach h a c

theorem Reach.trans (h : CalcHeap) {a b c : Nat} (h1 : Reach h a b)
    (h2 : Reach h b c) : Reach h a c := by
  induction h2 with
  | refl => exact h1
  | tail _ hedge ih => exact Reach.tail ih hedge

theorem reach_head (h : CalcHeap) {a x : Nat} (hr : Reach h a x) (hne : x ≠ a) :
    ∃ r ∈ refsOf h a, Reach h r x := by
  induction hr with
  | refl => exact absurd rfl hne
  | tail hab hedge ih =>
    rename_i b c
    by_cases hba : b = a
    · subst hba
      exact ⟨c, hedge, Reach.refl c⟩
    · obtain ⟨r, hrrefs, hrb⟩ := ih hba
      exact ⟨r, hrrefs, Reach.tail hrb hedge⟩

theorem indexOf_lt_of_mem_take : ∀ (l : List Nat) (i : Nat) (x : Nat),
    x ∈ l.take i → l.indexOf x < i
  | [], i, x, hx => by simp at hx
  | a :: l, 0, x, hx => by simp at hx
  | a :: l, i + 1, x, hx => by
    rw [List.take_succ_cons] at hx
    rcases List.mem_cons.mp hx with rfl | hx2
    · rw [List.indexOf_cons_self]
      omega
    · by_cases hax : a = x
      · subst hax
        rw [List.indexOf_cons_self]
        omega
      · rw [List.indexOf_cons_ne _ hax]
        have := indexOf_lt_of_mem_take l i x hx2
        omega

/-- M1: an edge inside the region strictly decreases the admission index. -/
theorem p1Region_edge (h : CalcHeap) (L : List Nat) (hreg : P1Region h L)
    (b : Nat) (hb : b ∈ L) (r : Nat) (hr : r ∈ refsOf h b) :
    r ∈ L ∧ L.indexOf r < L.indexOf b := by
  have hlt : L.indexOf b < L.length := List.indexOf_lt_length.mpr hb
  have hget : L.get ⟨L.indexOf b, hlt⟩ = b := List.indexOf_get _
  have := (hreg (L.indexOf b) hlt).2.2 r (by rw [hget]; exact hr)
  exact ⟨List.mem_of_mem_take this, indexOf_lt_of_mem_take L (L.indexOf b) r this⟩

/-- M2: reachability stays inside the region and weakly decreases the index. -/
theorem p1Region_reach (h : CalcHeap) (L : List Nat) (hreg : P1Region h L)
    (a : Nat) (ha : a ∈ L) (x : Nat) (hx : Reach h a x) :
    x ∈ L ∧ (x = a ∨ L.indexOf x < L.indexOf a) := by
  induction hx with
  | refl => exact ⟨ha, Or.inl rfl⟩
  | tail hab hedge ih =>
    rename_i b c
    obtain ⟨hbL, hbidx⟩ := ih
    obtain ⟨hcL, hcidx⟩ := p1Region_edge h L hreg b hbL c hedge
    refine ⟨hcL, Or.inr ?_⟩
    rcases hbidx with rfl | hlt
    · exact hcidx
    · omega

theorem p1Region_mem_keys (h : CalcHeap) (L : List Nat) (hreg : P1Region h L)
    (a : Nat) (ha : a ∈ L) : a ∈ h.objects.map (·.1) := by
  have hlt : L.indexOf a < L.length := List.indexOf_lt_length.mpr ha
  have hget : L.get ⟨L.indexOf a, hlt⟩ = a := List.indexOf_get _
  have := (hreg (L.indexOf a) hlt).1
  rw [hget] at this
  exact this

theorem p1Region_inbound (h : CalcHeap) (L : List Nat) (hreg : P1Region h L)
    (a : Nat) (ha : a ∈ L) : inboundCard h a ≤ 1 := by
  have hlt : L.indexOf a < L.length := List.indexOf_lt_length.mpr ha
  have hget : L.get ⟨L.indexOf a, hlt⟩ = a := List.indexOf_get _
  have := (hreg (L.indexOf a) hlt).2.1
  rw [hget] at this
  exact this

/-- A key referencing `z` appears in `z`'s inbound list. -/
theorem mem_inboundList_of_refs (h : CalcHeap) (HK : (h.objects.map (·.1)).Nodup)
    (u z : Nat) (hu : u ∈ h.objects.map (·.1)) (hz : z ∈ refsOf h u) :
    u ∈ inboundList h z := by
  obtain ⟨p, hp, hp1⟩ := List.mem_map.mp hu
  have hlook : lookupObj h p.1 = some p.2 := lookupObj_eq_of_mem h HK p hp
  have hrefs : refsOf h p.1 = p.2.referents := by
    unfold refsOf; rw [hlook]; rfl
  have hz2 : z ∈ p.2.referents := by
    rw [← hrefs, hp1]
    exact hz
  subst hp1
  unfold inboundList
  refine List.mem_map_of_mem (·.1) (List.mem_filter.mpr ⟨hp, ?_⟩)
  simpa using hz2

/-- R2: inside the region every address has at most one referencing object. -/
theorem unique_parent (h : CalcHeap) (HK : (h.objects.map (·.1)).Nodup)
    (L : List Nat) (hreg : P1Region h L) (z : Nat) (hzL : z ∈ L)
    (u1 u2 : Nat) (hu1 : u1 ∈ h.objects.map (·.1)) (hu2 : u2 ∈ h.objects.map (·.1))
    (hz1 : z ∈ refsOf h u1) (hz2 : z ∈ refsOf h u2) : u1 = u2 := by
  have hm1 : u1 ∈ inboundList h z := mem_inboundList_of_refs h HK u1 z hu1 hz1
  have hm2 : u2 ∈ inboundList h z := mem_inboundList_of_refs h HK u2 z hu2 hz2
  have hcard : (inboundList h z).length ≤ 1 := p1Region_inbound h L hreg z hzL
  cases hlist : inboundList h z with
  | nil => rw [hlist] at hm1; cases hm1
  | cons w ws =>
    rw [hlist] at hm1 hm2 hcard
    have hws : ws = [] := by
      cases ws with
      | nil => rfl
      | cons _ _ => simp at hcard
    subst hws
    rw [List.mem_singleton] at hm1 hm2
    rw [hm1, hm2]

/-- No edge returns to a region element from its own reachable set. -/
theorem no_reach_back (h : CalcHeap) (L : List Nat) (hreg : P1Region h L)
    (a r : Nat) (ha : a ∈ L) (hr : r ∈ refsOf h a) : ¬ Reach h r a := by
  intro hc
  obtain ⟨hrL, hridx⟩ := p1Region_edge h L hreg a ha r hr
  obtain ⟨-, hidx⟩ := p1Region_reach h L hreg r hrL a hc
  rcases hidx with rfl | hlt
  · omega
  · omega

/-- R3: the reachable sets of two distinct referents of a region element are
disjoint (the unique-parent property makes backward walks deterministic). -/
theorem sibling_reach_disjoint (h : CalcHeap) (HK : (h.objects.map (·.1)).Nodup)
    (L : List Nat) (hreg : P1Region h L) (a : Nat) (ha : a ∈ L)
    (r1 r2 : Nat) (he1 : r1 ∈ refsOf h a) (he2 : r2 ∈ refsOf h a) (hne : r1 ≠ r2) :
    ∀ (n : Nat) (z : Nat), Reach h r1 z → Reach h r2 z →
      L.indexOf a - L.indexOf z ≤ n → False := by
  obtain ⟨hr1L, hr1idx⟩ := p1Region_edge h L hreg a ha r1 he1
  obtain ⟨hr2L, hr2idx⟩ := p1Region_edge h L hreg a ha r2 he2
  intro n
  induction n with
  | zero =>
    intro z hz1 _ hm
    obtain ⟨hzL, hzidx⟩ := p1Region_reach h L hreg r1 hr1L z hz1
    rcases hzidx with rfl | hlt
    · omega
    · omega
  | succ n ih =>
    intro z hz1 hz2 hm
    obtain ⟨hzL, -⟩ := p1Region_reach h L hreg r1 hr1L z hz1
    by_cases hzr1 : z = r1
    · subst hzr1
      cases hz2 with
      | refl => exact hne rfl
      | tail hb hedge =>
        rename_i b
        obtain ⟨hbL, -⟩ := p1Region_reach h L hreg r2 hr2L b hb
        have hba : b = a := unique_parent h HK L hreg z hzL b a
          (p1Region_mem_keys h L hreg b hbL) (p1Region_mem_keys h L hreg a ha)
          hedge he1
        subst hba
        obtain ⟨-, hidx2⟩ := p1Region_reach h L hreg r2 hr2L b hb
        rcases hidx2 with heq | hlt
        · subst heq
          omega
        · omega
    · by_cases hzr2 : z = r2
      · subst hzr2
        cases hz1 with
        | refl => exact hne rfl
        | tail hb hedge =>
          rename_i b
          obtain ⟨hbL, -⟩ := p1Region_reach h L hreg r1 hr1L b hb
          have hba : b = a := unique_parent h HK L hreg z hzL b a
            (p1Region_mem_keys h L hreg b hbL) (p1Region_mem_keys h L hreg a ha)
            hedge he2
          subst hba
          obtain ⟨-, hidx1⟩ := p1Region_reach h L hreg r1 hr1L b hb
          rcases hidx1 with heq | hlt
          · subst heq
            omega
          · omega
      · cases hz1 with
        | refl => exact hzr1 rfl
        | tail hb1 hedge1 =>
          rename_i b1
          cases hz2 with
          | refl => exact hzr2 rfl
          | tail hb2 hedge2 =>
            rename_i b2
            obtain ⟨hb1L, hb1idx⟩ := p1Region_reach h L hreg r1 hr1L b1 hb1
            obtain ⟨hb2L, -⟩ := p1Region_reach h L hreg r2 hr2L b2 hb2
            have hb12 : b1 = b2 := unique_parent h HK L hreg z hzL b1 b2
              (p1Region_mem_keys h L hreg b1 hb1L) (p1Region_mem_keys h L hreg b2 hb2L)
              hedge1 hedge2
            subst hb12
            obtain ⟨-, hzidx⟩ := p1Region_edge h L hreg b1 hb1L z hedge1
            have hb1a : L.indexOf b1 < L.indexOf a := by
              rcases hb1idx with rfl | hlt
              · omega
              · omega
            exact ih b1 hb1 hb2 (by omega)

/-- R4: the total shallow size of the set reachable from a region element
equals its Phase-1 stored retained size. -/
theorem reach_sum (h : CalcHeap) (HK : (h.objects.map (·.1)).Nodup)
    (HR : ∀ p ∈ h.objects, p.2.referents.Nodup)
    (L : List Nat) (hreg : P1Region h L)
    (vals : List (Nat × Nat)) (hvals : P1ValsOk h L vals) :
    ∀ (n : Nat) (a : Nat), a ∈ L → L.indexOf a ≤ n →
      ∀ (D : Finset Nat), (∀ x, x ∈ D ↔ Reach h a x) →
      D.sum (sizeD h) = valueD vals a := by
  classical
  intro n
  induction n using Nat.strong_induction_on with
  | _ n ih =>
    intro a ha hidx D hD
    have haD : a ∈ D := (hD a).mpr (Reach.refl a)
    have hDr_spec : ∀ r ∈ refsOf h a, ∀ x,
        x ∈ D.filter (fun x => Reach h r x) ↔ Reach h r x := by
      intro r hr x
      rw [Finset.mem_filter]
      constructor
      · rintro ⟨-, hx⟩; exact hx
      · intro hx
        refine ⟨(hD x).mpr ?_, hx⟩
        exact Reach.trans h (Reach.tail (Reach.refl a) hr) hx
    have hDr_sum : ∀ r ∈ refsOf h a,
        (D.filter (fun x => Reach h r x)).sum (sizeD h) = valueD vals r := by
      intro r hr
      obtain ⟨hrL, hridx⟩ := p1Region_edge h L hreg a ha r hr
      exact ih (L.indexOf r) (by omega) r hrL (le_refl _) _ (hDr_spec r hr)
    have hlist : ∀ (rl : List Nat), rl.Nodup → (∀ r ∈ rl, r ∈ refsOf h a) →
        (D.filter (fun x => ∃ r ∈ rl, Reach h r x)).sum (sizeD h) =
          (rl.map (valueD vals)).sum := by
      intro rl
      induction rl with
      | nil =>
        intro _ _
        simp
      | cons r rest ihl =>
        intro hnd2 hsub
        have hr : r ∈ refsOf h a := hsub r (List.mem_cons_self r rest)
        have hrest : ∀ r' ∈ rest, r' ∈ refsOf h a :=
          fun r' hr' => hsub r' (List.mem_cons_of_mem r hr')
        have hsplit : D.filter (fun x => ∃ r' ∈ r :: rest, Reach h r' x) =
            (D.filter (fun x => Reach h r x)) ∪
              (D.filter (fun x => ∃ r' ∈ rest, Reach h r' x)) := by
          ext x
          simp only [Finset.mem_filter, Finset.mem_union, List.mem_cons]
          constructor
          · rintro ⟨hxD, r', (rfl | hr'), hrx⟩
            · exact Or.inl ⟨hxD, hrx⟩
            · exact Or.inr ⟨hxD, r', hr', hrx⟩
          · rintro (⟨hxD, hrx⟩ | ⟨hxD, r', hr', hrx⟩)
            · exact ⟨hxD, r, Or.inl rfl, hrx⟩
            · exact ⟨hxD, r', Or.inr hr', hrx⟩
        have hdisj : Disjoint (D.filter (fun x => Reach h r x))
            (D.filter (fun x => ∃ r' ∈ rest, Reach h r' x)) := by
          rw [Finset.disjoint_left]
          intro x hx1 hx2
          rw [Finset.mem_filter] at hx1 hx2
          obtain ⟨r', hr', hrx'⟩ := hx2.2
          have hner : r ≠ r' := by
            rintro rfl
            exact (List.nodup_cons.mp hnd2).1 hr'
          exact sibling_reach_disjoint h HK L hreg a ha r r' hr (hrest r' hr') hner
            (L.indexOf a - L.indexOf x) x hx1.2 hrx' (le_refl _)
        rw [hsplit, Finset.sum_union hdisj, List.map_cons, List.sum_cons,
          hDr_sum r hr, ihl ((List.nodup_cons.mp hnd2).2) hrest]
    have herase : D.erase a = D.filter (fun x => ∃ r ∈ refsOf h a, Reach h r x) := by
      ext x
      rw [Finset.mem_erase, Finset.mem_filter]
      constructor
      · rintro ⟨hxa, hxD⟩
        exact ⟨hxD, reach_head h ((hD x).mp hxD) hxa⟩
      · rintro ⟨hxD, r, hr, hrx⟩
        refine ⟨?_, hxD⟩
        rintro rfl
        exact no_reach_back h L hreg x r ha hr hrx
    have hfinal : D.sum (sizeD h) = sizeD h a + (D.erase a).sum (sizeD h) :=
      (Finset.add_sum_erase D (sizeD h) haD).symm
    rw [hfinal, herase, hlist (refsOf h a) (refsOf_nodup h HR a) (fun _ hr => hr)]
    unfold valueD
    rw [hvals a ha]
    rfl

theorem deletedParents_empty (h : CalcHeap) (x : Nat) :
    deletedParents h ∅ x = ∅ := rfl

/-- The initial state of `_retained_heap_for_object` satisfies the invariant
for the singleton seed with seed view 0. -/
theorem simInv_object_seed (h : CalcHeap) (o : Nat) :
    SimInv h {o} (fun _ => 0) ⟨[o], [(o, 0)], ∅⟩ := by
  refine ⟨?_, ?_, ?_, ?_, ?_, ?_⟩
  · intro x _
    rw [deletedParents_empty]
    simp only [Finset.not_nonempty_empty, or_false, Finset.mem_singleton]
    unfold viewFind
    rw [List.find?_singleton]
    by_cases hx : o = x
    · subst hx
      simp
    · rw [if_neg (by simpa using hx)]
      simp only [Option.isSome_none, Bool.false_eq_true, false_iff]
      exact fun hc => hx hc.symm
  · intro x _ hsome
    unfold viewFind at hsome
    rw [List.find?_singleton] at hsome
    by_cases hx : o = x
    · subst hx
      rw [deletedParents_empty]
      unfold seedInit
      rw [if_pos (Finset.mem_singleton_self o)]
      simp [viewOf, viewFind]
    · rw [if_neg (by simpa using hx)] at hsome
      exact absurd hsome (by simp)
  · intro x _ hr
    rw [deletedParents_empty] at hr
    simp only [Finset.not_nonempty_empty, or_false, Finset.mem_singleton] at hr
    subst hr
    exact List.mem_singleton_self x
  · intro x hx
    rw [List.mem_singleton] at hx
    subst hx
    exact Or.inl (Finset.mem_singleton_self x)
  · intro x hx
    exact absurd hx (Finset.not_mem_empty x)
  · exact ⟨[], List.nodup_nil, by simp, fun i hi => absurd hi (by simp)⟩

/-- R5, forward: every deleted address is reachable from the seed (by
induction along the deletion order). -/
theorem deleted_subset_reach (h : CalcHeap) (o : Nat) (s : SimState)
    (inv : SimInv h {o} (fun _ => 0) s) :
    ∀ x ∈ s.deleted, Reach h o x := by
  obtain ⟨ord, hnd, hset, hsup⟩ := inv.delOrder
  have hstep : ∀ (i : Nat) (hi : i < ord.length), Reach h o (ord.get ⟨i, hi⟩) := by
    intro i
    induction i using Nat.strong_induction_on with
    | _ i ih =>
      intro hi
      rcases hsup i hi with hS | ⟨u, hu, hr⟩
      · rw [Finset.mem_singleton] at hS
        rw [hS]
        exact Reach.refl o
      · have huord : u ∈ ord := List.mem_of_mem_take hu
        have huidx : ord.indexOf u < i := indexOf_lt_of_mem_take ord i u hu
        have hulen : ord.indexOf u < ord.length := List.indexOf_lt_length.mpr huord
        have hget : ord.get ⟨ord.indexOf u, hulen⟩ = u := List.indexOf_get _
        have hreach_u : Reach h o u := by
          have := ih (ord.indexOf u) huidx hulen
          rw [hget] at this
          exact this
        exact Reach.tail hreach_u hr
  intro x hx
  rw [hset] at hx
  have hxord : x ∈ ord := List.mem_toFinset.mp hx
  have hlen : ord.indexOf x < ord.length := List.indexOf_lt_length.mpr hxord
  have hget : ord.get ⟨ord.indexOf x, hlen⟩ = x := List.indexOf_get _
  have := hstep (ord.indexOf x) hlen
  rw [hget] at this
  exact this

/-- R5, backward: in a final state (nothing deletable on the front), every
address reachable from the seed (each with at most one inbound reference) has
been deleted. -/
theorem reach_subset_deleted (h : CalcHeap) (o : Nat)
    (hin : ∀ x, Reach h o x → inboundCard h x ≤ 1)
    (s : SimState) (inv : SimInv h {o} (fun _ => 0) s)
    (hfinal : ∀ x ∈ s.front, x ∈ s.deleted ∨ 0 < viewOf s x) :
    ∀ x, Reach h o x → x ∈ s.deleted := by
  have ho : o ∈ s.deleted := by
    by_contra hc
    have hent := (inv.viewEntry o hc).mpr (Or.inl (Finset.mem_singleton_self o))
    have hfr := inv.frontMem o hc (Or.inl (Finset.mem_singleton_self o))
    have hval := inv.viewVal o hc hent
    have hval' : viewOf s o = 0 - ((deletedParents h s.deleted o).card : Int) := by
      rw [hval]
      unfold seedInit
      rw [if_pos (Finset.mem_singleton_self o)]
    rcases hfinal o hfr with hdel | hpos
    · exact hc hdel
    · omega
  intro x hx
  induction hx with
  | refl => exact ho
  | tail hab hedge ih =>
    rename_i b c
    by_contra hc
    have hco : c ≠ o := by
      rintro rfl
      exact hc ho
    have hbdel : b ∈ s.deleted := ih
    have hpar : b ∈ deletedParents h s.deleted c := by
      unfold deletedParents
      rw [Finset.mem_filter]
      exact ⟨hbdel, hedge⟩
    have hparne : (deletedParents h s.deleted c).Nonempty := ⟨b, hpar⟩
    have hent := (inv.viewEntry c hc).mpr (Or.inr hparne)
    have hfr := inv.frontMem c hc (Or.inr hparne)
    have hval := inv.viewVal c hc hent
    unfold seedInit at hval
    rw [if_neg (by simpa using hco)] at hval
    have hinb : inboundCard h c ≤ 1 := hin c (Reach.tail hab hedge)
    have hcard : 1 ≤ (deletedParents h s.deleted c).card :=
      Finset.one_le_card.mpr hparne
    rcases hfinal c hfr with hdel | hpos
    · exact hc hdel
    · omega

/-- For a member `o` of a Phase-1 region, any terminating run of the
per-object simulation seeded with `o` alone returns the Phase-1 retained
size `vals[o]`. -/
theorem retainedHeap0_run_value (h : CalcHeap)
    (HK : (h.objects.map (·.1)).Nodup)
    (HR : ∀ p ∈ h.objects, p.2.referents.Nodup)
    (L : List Nat) (hreg : P1Region h L)
    (vals : List (Nat × Nat)) (hvals : P1ValsOk h L vals)
    (o : Nat) (hoL : o ∈ L) :
    ∀ (p1 : P1Result) (f : Nat) (r : Nat × SimState),
      retainedHeap0 h p1 false f ⟨[o], [(o, 0)], ∅⟩ 0 = some r →
      r.1 = valueD vals o := by
  intro p1 f r hr
  have inv0 := simInv_object_seed h o
  obtain ⟨invf, hsub, hacc, hfinal⟩ :=
    retainedHeap0_spec h p1 {o} (fun _ => 0) HR f ⟨[o], [(o, 0)], ∅⟩ 0 r hr inv0
  have hDf : ∀ x, x ∈ r.2.deleted ↔ Reach h o x := by
    intro x
    constructor
    · exact fun hx => deleted_subset_reach h o r.2 invf x hx
    · refine fun hx => reach_subset_deleted h o ?_ r.2 invf hfinal x hx
      intro y hy
      exact p1Region_inbound h L hreg y (p1Region_reach h L hreg o hoL y hy).1
  have hsum := reach_sum h HK HR L hreg vals hvals (L.indexOf o) o hoL le_rfl
      r.2.deleted hDf
  have hacc' : r.1 = 0 + (r.2.deleted \ (∅ : Finset Nat)).sum (sizeD h) := hacc
  rw [Finset.sdiff_empty, Nat.zero_add] at hacc'
  rw [hacc']
  exact hsum

/-- C2: for every object graph (with duplicate-free keys and referent lists)
and every object `o` that Phase 1 (`_find_strict_subtrees`) marks as a strict
subtree root, the retained size Phase 1 assigns to `o` equals its own shallow
size plus the sum of its referents' Phase-1 retained sizes, and the Phase-2
per-object simulated deletion (`_retained_heap_for_object`) run on `o` alone
terminates and computes that same value. -/
theorem strict_subtree_phase1_matches_phase2 (h : CalcHeap)
    (HK : (h.objects.map (·.1)).Nodup)
    (HR : ∀ p ∈ h.objects, p.2.referents.Nodup)
    (fuel : Nat) (st : P1Result) (hst : findStrictSubtrees h fuel = some st)
    (o : Nat) (ho : o ∈ st.roots) :
    valueD st.vals o = sizeD h o + ((refsOf h o).map (valueD st.vals)).sum ∧
    retainedHeapForObject h st false o
        ((simUniverse h ⟨[o], [(o, 0)], ∅⟩).card + 1) = some (valueD st.vals o) := by
  obtain ⟨L, _, hroots, hreg, hvals⟩ := findStrictSubtrees_inv h HK fuel st hst
  have hoL : o ∈ L := List.mem_toFinset.mp (hroots ▸ ho)
  constructor
  · unfold valueD
    rw [hvals o hoL]
    rfl
  · have hcard : (simUniverse h ⟨[o], [(o, 0)], ∅⟩).card <
        ((simUniverse h ⟨[o], [(o, 0)], ∅⟩).card + 1) +
          (⟨[o], [(o, 0)], ∅⟩ : SimState).deleted.card := by
      show _ < _ + 1 + (∅ : Finset Nat).card
      simp
    have htot := retainedHeap0_total h st
        ((simUniverse h ⟨[o], [(o, 0)], ∅⟩).card + 1) ⟨[o], [(o, 0)], ∅⟩ 0 hcard
    obtain ⟨r, hr⟩ := Option.isSome_iff_exists.mp htot
    have hval := retainedHeap0_run_value h HK HR L hreg st.vals hvals o hoL st _ r hr
    unfold retainedHeapForObject
    rw [hr]
    show some r.1 = some (valueD st.vals o)
    rw [hval]

/-- Witness for C2 at a concrete two-object heap: object 1 of size 10 refers
to object 2 of size 5; Phase 1 admits both as subtree roots with retained
sizes 5 and 15, and the Phase-2 simulation on object 1 returns 15. -/
theorem strict_subtree_phase1_matches_phase2_witness :
    valueD [(1, 15), (2, 5)] 1 =
        sizeD ⟨[(1, ⟨10, [2]⟩), (2, ⟨5, []⟩)], []⟩ 1 +
          ((refsOf ⟨[(1, ⟨10, [2]⟩), (2, ⟨5, []⟩)], []⟩ 1).map
            (valueD [(1, 15), (2, 5)])).sum ∧
    retainedHeapForObject ⟨[(1, ⟨10, [2]⟩), (2, ⟨5, []⟩)], []⟩
        ⟨{1, 2}, [(1, 15), (2, 5)]⟩ false 1
        ((simUniverse ⟨[(1, ⟨10, [2]⟩), (2, ⟨5, []⟩)], []⟩
          ⟨[1], [(1, 0)], ∅⟩).card + 1) =
      some (valueD [(1, 15), (2, 5)] 1) :=
  strict_subtree_phase1_matches_phase2 ⟨[(1, ⟨10, [2]⟩), (2, ⟨5, []⟩)], []⟩
    (by decide) (by decide) 3 ⟨{1, 2}, [(1, 15), (2, 5)]⟩ (by decide) 1 (by decide)

/-- With no Phase-1 roots the subtree shortcut can never fire, so the sweep
behaves as with `use_subtrees=False`. -/
theorem sweepGo_empty_roots (h : CalcHeap) (vals : List (Nat × Nat)) :
    ∀ (i : Nat) (s : SimState) (acc : Nat) (hap : Bool),
      sweepGo h ⟨∅, vals⟩ true i s acc hap = sweepGo h ⟨∅, vals⟩ false i s acc hap := by
  intro i
  induction i with
  | zero => intro s acc hap; rfl
  | succ i ih =>
    intro s acc hap
    unfold sweepGo
    by_cases h1 : 0 < viewOf s (s.front.getD i 0)
    · rw [if_pos h1, if_pos h1]
    · rw [if_neg h1, if_neg h1]
      by_cases h2 : s.front.getD i 0 ∈ s.deleted
      · rw [if_pos h2, if_pos h2]
        exact ih _ _ _
      · rw [if_neg h2, if_neg h2]
        rw [if_neg (fun hc => Finset.not_mem_empty _ hc.2),
          if_neg (fun hc => Finset.not_mem_empty _ hc.2)]
        cases hobj : lookupObj h (s.front.getD i 0) with
        | some obj => exact ih _ _ _
        | none => exact ih _ _ _

theorem retainedHeap0_empty_roots (h : CalcHeap) (vals : List (Nat × Nat)) :
    ∀ (fuel : Nat) (s : SimState) (acc : Nat),
      retainedHeap0 h ⟨∅, vals⟩ true fuel s acc =
        retainedHeap0 h ⟨∅, vals⟩ false fuel s acc := by
  intro fuel
  induction fuel with
  | zero => intro s acc; rfl
  | succ fuel ih =>
    intro s acc
    rw [retainedHeap0_succ, retainedHeap0_succ, sweepGo_empty_roots]
    by_cases hb : (sweepGo h ⟨∅, vals⟩ false (sortDesc (viewOf s) s.front).length
        ⟨sortDesc (viewOf s) s.front, s.view, s.deleted⟩ 0 false).2.1 = true
    · rw [if_pos hb, if_pos hb, ih]
    · rw [if_neg hb, if_neg hb]

/-! ## A pure three-object cycle -/

/-- The heap `a→b→c→a` with no other edges and no threads. -/
def cycleHeap (a b c sa sb sc : Nat) : CalcHeap :=
  ⟨[(a, ⟨sa, [b]⟩), (b, ⟨sb, [c]⟩), (c, ⟨sc, [a]⟩)], []⟩

theorem cyc_lookup_a (a b c sa sb sc : Nat) :
    lookupObj (cycleHeap a b c sa sb sc) a = some ⟨sa, [b]⟩ := by
  unfold lookupObj cycleHeap
  rw [List.find?_cons_of_pos _ (by simp)]
  rfl

theorem cyc_lookup_b (a b c sa sb sc : Nat) (hab : a ≠ b) :
    lookupObj (cycleHeap a b c sa sb sc) b = some ⟨sb, [c]⟩ := by
  unfold lookupObj cycleHeap
  rw [List.find?_cons_of_neg _ (by simp [hab]), List.find?_cons_of_pos _ (by simp)]
  rfl

theorem cyc_lookup_c (a b c sa sb sc : Nat) (hbc : b ≠ c) (hac : a ≠ c) :
    lookupObj (cycleHeap a b c sa sb sc) c = some ⟨sc, [a]⟩ := by
  unfold lookupObj cycleHeap
  rw [List.find?_cons_of_neg _ (by simp [hac]), List.find?_cons_of_neg _ (by simp [hbc]),
    List.find?_cons_of_pos _ (by simp)]
  rfl

theorem cyc_inbound (a b c sa sb sc : Nat)
    (hab : a ≠ b) (hbc : b ≠ c) (hac : a ≠ c) :
    inboundList (cycleHeap a b c sa sb sc) a = [c] ∧
    inboundList (cycleHeap a b c sa sb sc) b = [a] ∧
    inboundList (cycleHeap a b c sa sb sc) c = [b] := by
  unfold inboundList cycleHeap
  refine ⟨?_, ?_, ?_⟩ <;>
    simp [List.filter_cons, hab, hbc, hac, Ne.symm hab, Ne.symm hbc, Ne.symm hac]

theorem cyc_reach (a b c sa sb sc : Nat)
    (hab : a ≠ b) (hbc : b ≠ c) (hac : a ≠ c)
    (o : Nat) (ho : o = a ∨ o = b ∨ o = c) :
    ∀ x, Reach (cycleHeap a b c sa sb sc) o x ↔ (x = a ∨ x = b ∨ x = c) := by
  have hra : refsOf (cycleHeap a b c sa sb sc) a = [b] := by
    unfold refsOf; rw [cyc_lookup_a]; rfl
  have hrb : refsOf (cycleHeap a b c sa sb sc) b = [c] := by
    unfold refsOf; rw [cyc_lookup_b a b c sa sb sc hab]; rfl
  have hrc : refsOf (cycleHeap a b c sa sb sc) c = [a] := by
    unfold refsOf; rw [cyc_lookup_c a b c sa sb sc hbc hac]; rfl
  intro x
  constructor
  · intro hx
    induction hx with
    | refl => exact ho
    | tail hou hedge ih =>
      rcases ih with rfl | rfl | rfl
      · rw [hra] at hedge
        rw [List.mem_singleton] at hedge
        exact Or.inr (Or.inl hedge)
      · rw [hrb] at hedge
        rw [List.mem_singleton] at hedge
        exact Or.inr (Or.inr hedge)
      · rw [hrc] at hedge
        rw [List.mem_singleton] at hedge
        exact Or.inl hedge
  · intro hx
    rcases ho with rfl | rfl | rfl
    · rcases hx with rfl | rfl | rfl
      · exact Reach.refl _
      · exact Reach.tail (Reach.refl _) (by rw [hra]; exact List.mem_singleton_self _)
      · exact Reach.tail
          (Reach.tail (Reach.refl _) (by rw [hra]; exact List.mem_singleton_self _))
          (by rw [hrb]; exact List.mem_singleton_self _)
    · rcases hx with rfl | rfl | rfl
      · exact Reach.tail
          (Reach.tail (Reach.refl _) (by rw [hrb]; exact List.mem_singleton_self _))
          (by rw [hrc]; exact List.mem_singleton_self _)
      · exact Reach.refl _
      · exact Reach.tail (Reach.refl _) (by rw [hrb]; exact List.mem_singleton_self _)
    · rcases hx with rfl | rfl | rfl
      · exact Reach.tail (Reach.refl _) (by rw [hrc]; exact List.mem_singleton_self _)
      · exact Reach.tail
          (Reach.tail (Reach.refl _) (by rw [hrc]; exact List.mem_singleton_self _))
          (by rw [hra]; exact List.mem_singleton_self _)
      · exact Reach.refl _

/-- C3: on the pure cycle `a→b→c→a` with no other edges and no external
inbound references, Phase 1 finds no strict subtrees, and the per-object
simulated-deletion computation yields
`retained(a) = retained(b) = retained(c) = size(a)+size(b)+size(c)`. -/
theorem cycle_retained_equal (a b c sa sb sc : Nat)
    (hab : a ≠ b) (hbc : b ≠ c) (hac : a ≠ c) :
    findStrictSubtrees (cycleHeap a b c sa sb sc) 1 = some ⟨∅, []⟩ ∧
    ∀ o, (o = a ∨ o = b ∨ o = c) →
      retainedHeapForObject (cycleHeap a b c sa sb sc) ⟨∅, []⟩ true o
          ((simUniverse (cycleHeap a b c sa sb sc) ⟨[o], [(o, 0)], ∅⟩).card + 1) =
        some (sa + sb + sc) := by
  have hinit : p1Init (cycleHeap a b c sa sb sc) = (⟨∅, []⟩, ∅) := by
    unfold p1Init cycleHeap
    simp only [List.foldl]
    unfold p1InitStep
    rw [if_neg (fun hc => List.cons_ne_nil _ _ hc.1),
      if_neg (fun hc => List.cons_ne_nil _ _ hc.1),
      if_neg (fun hc => List.cons_ne_nil _ _ hc.1)]
  constructor
  · unfold findStrictSubtrees
    rw [hinit]
    unfold p1Loop
    rw [if_pos rfl]
  · intro o ho
    obtain ⟨hia, hib, hic⟩ := cyc_inbound a b c sa sb sc hab hbc hac
    have HK : ((cycleHeap a b c sa sb sc).objects.map (·.1)).Nodup := by
      simp [cycleHeap, hab, hbc, hac]
    have HR : ∀ p ∈ (cycleHeap a b c sa sb sc).objects, p.2.referents.Nodup := by
      intro p hp
      simp only [cycleHeap, List.mem_cons, List.mem_singleton,
        List.not_mem_nil, or_false] at hp
      rcases hp with rfl | rfl | rfl <;> exact List.nodup_singleton _
    have hcard : (simUniverse (cycleHeap a b c sa sb sc) ⟨[o], [(o, 0)], ∅⟩).card <
        ((simUniverse (cycleHeap a b c sa sb sc) ⟨[o], [(o, 0)], ∅⟩).card + 1) +
          (⟨[o], [(o, 0)], ∅⟩ : SimState).deleted.card := by
      show _ < _ + 1 + (∅ : Finset Nat).card
      simp
    have htot := retainedHeap0_total (cycleHeap a b c sa sb sc) ⟨∅, []⟩
        ((simUniverse (cycleHeap a b c sa sb sc) ⟨[o], [(o, 0)], ∅⟩).card + 1)
        ⟨[o], [(o, 0)], ∅⟩ 0 hcard
    obtain ⟨r, hr⟩ := Option.isSome_iff_exists.mp htot
    obtain ⟨invf, hsub, hacc, hfinal⟩ :=
      retainedHeap0_spec (cycleHeap a b c sa sb sc) ⟨∅, []⟩ {o} (fun _ => 0) HR
        _ ⟨[o], [(o, 0)], ∅⟩ 0 r hr (simInv_object_seed _ o)
    have hreach := cyc_reach a b c sa sb sc hab hbc hac o ho
    have hin : ∀ x, Reach (cycleHeap a b c sa sb sc) o x →
        inboundCard (cycleHeap a b c sa sb sc) x ≤ 1 := by
      intro x hx
      rcases (hreach x).mp hx with rfl | rfl | rfl
      · unfold inboundCard; rw [hia]; exact Nat.le_refl 1
      · unfold inboundCard; rw [hib]; exact Nat.le_refl 1
      · unfold inboundCard; rw [hic]; exact Nat.le_refl 1
    have hDf : ∀ x, x ∈ r.2.deleted ↔ (x = a ∨ x = b ∨ x = c) := by
      intro x
      constructor
      · intro hx
        exact (hreach x).mp (deleted_subset_reach _ o r.2 invf x hx)
      · intro hx
        exact reach_subset_deleted _ o hin r.2 invf hfinal x ((hreach x).mpr hx)
    have hDset : r.2.deleted = {a, b, c} := by
      apply Finset.ext
      intro x
      rw [hDf x]
      simp
    have hsa : sizeD (cycleHeap a b c sa sb sc) a = sa := by
      unfold sizeD; rw [cyc_lookup_a]; rfl
    have hsb : sizeD (cycleHeap a b c sa sb sc) b = sb := by
      unfold sizeD; rw [cyc_lookup_b a b c sa sb sc hab]; rfl
    have hsc : sizeD (cycleHeap a b c sa sb sc) c = sc := by
      unfold sizeD; rw [cyc_lookup_c a b c sa sb sc hbc hac]; rfl
    have hsums : ({a, b, c} : Finset Nat).sum (sizeD (cycleHeap a b c sa sb sc)) =
        sa + sb + sc := by
      rw [Finset.sum_insert (by simp [hab, hac]),
        Finset.sum_insert (by simp [hbc]), Finset.sum_singleton, hsa, hsb, hsc]
      omega
    have hval : r.1 = sa + sb + sc := by
      have hacc' : r.1 =
          0 + (r.2.deleted \ (∅ : Finset Nat)).sum (sizeD (cycleHeap a b c sa sb sc)) :=
        hacc
      rw [Finset.sdiff_empty, Nat.zero_add, hDset, hsums] at hacc'
      exact hacc'
    unfold retainedHeapForObject
    rw [retainedHeap0_empty_roots, hr]
    show some r.1 = some (sa + sb + sc)
    rw [hval]

/-- Witness for C3 at the cycle `1→2→3→1` with sizes 10, 20, 30: Phase 1 finds
nothing, and each object retains 60. -/
theorem cycle_retained_equal_witness :
    findStrictSubtrees (cycleHeap 1 2 3 10 20 30) 1 = some ⟨∅, []⟩ ∧
    ∀ o, (o = 1 ∨ o = 2 ∨ o = 3) →
      retainedHeapForObject (cycleHeap 1 2 3 10 20 30) ⟨∅, []⟩ true o
          ((simUniverse (cycleHeap 1 2 3 10 20 30) ⟨[o], [(o, 0)], ∅⟩).card + 1) =
        some (10 + 20 + 30) :=
  cycle_retained_equal 1 2 3 10 20 30 (by decide) (by decide) (by decide)

/-! ## Per-thread computation (`_calculate_for_all_threads`) -/

/-- The seed view count of one local: global inbound count plus one per other
thread also holding it; `none` models the `KeyError` of the raw
`InboundReferences` lookup. -/
def seedVal (h : CalcHeap) (threads : List RThread) (t : RThread) (a : Nat) :
    Option Int :=
  (inboundGet h a).map (fun inb =>
    (inb.length : Int) +
      (threads.filter (fun th => ¬ (th = t) ∧ a ∈ threadLocals th)).length)

theorem threadSeedViews_eq (h : CalcHeap) (threads : List RThread) (t : RThread) :
    threadSeedViews h threads t =
      (threadLocals t).foldlM
        (fun view a => (seedVal h threads t a).map (fun z => (a, z) :: view)) [] := by
  unfold threadSeedViews seedVal
  congr 1
  funext view a
  cases inboundGet h a <;> rfl

theorem foldlM_seed_isSome (g : Nat → Option Int) :
    ∀ (l : List Nat) (acc : List (Nat × Int)),
      (∀ a ∈ l, (g a).isSome) →
      (l.foldlM (fun view a => (g a).map (fun z => (a, z) :: view)) acc).isSome := by
  intro l
  induction l with
  | nil => intro acc _; rfl
  | cons a l ih =>
    intro acc hall
    rw [List.foldlM_cons]
    obtain ⟨z, hz⟩ := Option.isSome_iff_exists.mp (hall a (List.mem_cons_self a l))
    rw [hz]
    exact ih ((a, z) :: acc) (fun b hb => hall b (List.mem_cons_of_mem a hb))

theorem foldlM_seed_keys (g : Nat → Option Int) :
    ∀ (l : List Nat) (acc v : List (Nat × Int)),
      l.foldlM (fun view a => (g a).map (fun z => (a, z) :: view)) acc = some v →
      ∀ x, ((viewFind v x).isSome ↔ ((viewFind acc x).isSome ∨ x ∈ l)) := by
  intro l
  induction l with
  | nil =>
    intro acc v hv x
    rw [← Option.some.inj hv]
    simp
  | cons a l ih =>
    intro acc v hv x
    rw [List.foldlM_cons] at hv
    cases hga : g a with
    | none =>
      rw [hga] at hv
      exact absurd hv (by simp)
    | some z =>
      rw [hga] at hv
      simp only [Option.map_some', Option.some_bind] at hv
      rw [ih ((a, z) :: acc) v hv x, viewFind_cons]
      by_cases hax : a = x
      · subst hax
        simp
      · rw [if_neg hax]
        have hax' : ¬ x = a := fun hc => hax hc.symm
        simp only [List.mem_cons]
        tauto

/-- The initial state of a per-thread deletion satisfies the invariant, with
the thread's locals as the seed set and the seed views as the seed values. -/
theorem simInv_thread_seed (h : CalcHeap) (threads : List RThread) (t : RThread)
    (v : List (Nat × Int)) (hv : threadSeedViews h threads t = some v) :
    SimInv h (threadLocals t).toFinset
      (fun x => viewOf ⟨threadLocals t, v, ∅⟩ x) ⟨threadLocals t, v, ∅⟩ := by
  have hkeys : ∀ x, ((viewFind v x).isSome ↔ x ∈ threadLocals t) := by
    have hbase := foldlM_seed_keys (seedVal h threads t) (threadLocals t) [] v
      (by rw [← threadSeedViews_eq]; exact hv)
    intro x
    rw [hbase x]
    simp [viewFind]
  refine ⟨?_, ?_, ?_, ?_, ?_, ?_⟩
  · intro x _
    rw [deletedParents_empty]
    simp only [Finset.not_nonempty_empty, or_false, List.mem_toFinset]
    exact hkeys x
  · intro x _ hsome
    rw [deletedParents_empty]
    unfold seedInit
    rw [if_pos (List.mem_toFinset.mpr ((hkeys x).mp hsome))]
    simp
  · intro x _ hx
    rw [deletedParents_empty] at hx
    simp only [Finset.not_nonempty_empty, or_false, List.mem_toFinset] at hx
    exact hx
  · intro x hx
    exact Or.inl (List.mem_toFinset.mpr hx)
  · intro x hx
    exact absurd hx (Finset.not_mem_empty x)
  · exact ⟨[], List.nodup_nil, by simp, fun i hi => absurd hi (by simp)⟩

/-- C4 (amended): for every heap and every thread all of whose frame locals
are known to the inbound-reference index (object addresses or referents of
some object), the per-thread computation completes without error, and the
result counts the shallow sizes of the deleted addresses — in particular an
address absent from the objects map contributes `sizeD h x = 0`, nothing. -/
theorem thread_known_locals_complete (h : CalcHeap) (threads : List RThread)
    (t : RThread) (HR : ∀ p ∈ h.objects, p.2.referents.Nodup)
    (hknown : ∀ a ∈ threadLocals t, (inboundGet h a).isSome) :
    ∃ v, threadSeedViews h threads t = some v ∧
      ∀ fuel, (simUniverse h ⟨threadLocals t, v, ∅⟩).card < fuel →
        ∃ (res : Nat) (s : SimState),
          retainedHeap0 h ⟨∅, []⟩ false fuel ⟨threadLocals t, v, ∅⟩ 0 =
            some (res, s) ∧
          threadRetainedHeap h threads t fuel = some res ∧
          res = s.deleted.sum (sizeD h) := by
  have hvs : (threadSeedViews h threads t).isSome := by
    rw [threadSeedViews_eq]
    refine foldlM_seed_isSome (seedVal h threads t) (threadLocals t) [] ?_
    intro a ha
    unfold seedVal
    rw [Option.isSome_map']
    exact hknown a ha
  obtain ⟨v, hv⟩ := Option.isSome_iff_exists.mp hvs
  refine ⟨v, hv, ?_⟩
  intro fuel hfuel
  have hcard : (simUniverse h ⟨threadLocals t, v, ∅⟩).card <
      fuel + (⟨threadLocals t, v, ∅⟩ : SimState).deleted.card := by
    show _ < fuel + (∅ : Finset Nat).card
    simpa using hfuel
  have htot := retainedHeap0_total h ⟨∅, []⟩ fuel ⟨threadLocals t, v, ∅⟩ 0 hcard
  obtain ⟨r, hr⟩ := Option.isSome_iff_exists.mp htot
  obtain ⟨invf, hsub, hacc, hfinal⟩ :=
    retainedHeap0_spec h ⟨∅, []⟩ (threadLocals t).toFinset
      (fun x => viewOf ⟨threadLocals t, v, ∅⟩ x) HR fuel ⟨threadLocals t, v, ∅⟩ 0
      r hr (simInv_thread_seed h threads t v hv)
  refine ⟨r.1, r.2, by rw [hr], ?_, ?_⟩
  · unfold threadRetainedHeap
    rw [hv]
    show (retainedHeap0 h ⟨∅, []⟩ false fuel ⟨threadLocals t, v, ∅⟩ 0).map (·.1) =
      some r.1
    rw [hr]
    rfl
  · have hacc' : r.1 = 0 + (r.2.deleted \ (∅ : Finset Nat)).sum (sizeD h) := hacc
    rw [Finset.sdiff_empty, Nat.zero_add] at hacc'
    exact hacc'

/-- Witness for C4 at a one-object heap whose only thread holds local address
2, a referent known to the index but absent from the objects map: the
computation completes and the unknown address contributes nothing. -/
theorem thread_known_locals_complete_witness :
    ∃ v, threadSeedViews ⟨[(1, ⟨5, [2]⟩)], [⟨"main", true, false,
        [⟨"f.py", 1, "f", [("x", 2)]⟩]⟩]⟩
      [⟨"main", true, false, [⟨"f.py", 1, "f", [("x", 2)]⟩]⟩]
      ⟨"main", true, false, [⟨"f.py", 1, "f", [("x", 2)]⟩]⟩ = some v ∧
      ∀ fuel, (simUniverse ⟨[(1, ⟨5, [2]⟩)], [⟨"main", true, false,
          [⟨"f.py", 1, "f", [("x", 2)]⟩]⟩]⟩
          ⟨threadLocals ⟨"main", true, false, [⟨"f.py", 1, "f", [("x", 2)]⟩]⟩,
            v, ∅⟩).card < fuel →
        ∃ (res : Nat) (s : SimState),
          retainedHeap0 ⟨[(1, ⟨5, [2]⟩)], [⟨"main", true, false,
              [⟨"f.py", 1, "f", [("x", 2)]⟩]⟩]⟩ ⟨∅, []⟩ false fuel
            ⟨threadLocals ⟨"main", true, false, [⟨"f.py", 1, "f", [("x", 2)]⟩]⟩,
              v, ∅⟩ 0 = some (res, s) ∧
          threadRetainedHeap ⟨[(1, ⟨5, [2]⟩)], [⟨"main", true, false,
              [⟨"f.py", 1, "f", [("x", 2)]⟩]⟩]⟩
            [⟨"main", true, false, [⟨"f.py", 1, "f", [("x", 2)]⟩]⟩]
            ⟨"main", true, false, [⟨"f.py", 1, "f", [("x", 2)]⟩]⟩ fuel =
            some res ∧
          res = s.deleted.sum (sizeD ⟨[(1, ⟨5, [2]⟩)], [⟨"main", true, false,
            [⟨"f.py", 1, "f", [("x", 2)]⟩]⟩]⟩) :=
  thread_known_locals_complete ⟨[(1, ⟨5, [2]⟩)], [⟨"main", true, false,
      [⟨"f.py", 1, "f", [("x", 2)]⟩]⟩]⟩
    [⟨"main", true, false, [⟨"f.py", 1, "f", [("x", 2)]⟩]⟩]
    ⟨"main", true, false, [⟨"f.py", 1, "f", [("x", 2)]⟩]⟩
    (by decide) (by decide)

/-- C4, counterexample to the original claim: a thread holding local address
7 in a heap whose only object is 1 with no referents — address 7 is known
neither as an object nor as a referent, so the seed-view lookup raises
`KeyError` (modelled `none`) and the per-thread computation fails for every
fuel instead of skipping the address. -/
theorem thread_unknown_local_keyerror :
    threadSeedViews ⟨[(1, ⟨5, []⟩)], [⟨"main", true, false,
        [⟨"f.py", 1, "f", [("x", 7)]⟩]⟩]⟩
      [⟨"main", true, false, [⟨"f.py", 1, "f", [("x", 7)]⟩]⟩]
      ⟨"main", true, false, [⟨"f.py", 1, "f", [("x", 7)]⟩]⟩ = none ∧
    ∀ fuel, threadRetainedHeap ⟨[(1, ⟨5, []⟩)], [⟨"main", true, false,
        [⟨"f.py", 1, "f", [("x", 7)]⟩]⟩]⟩
      [⟨"main", true, false, [⟨"f.py", 1, "f", [("x", 7)]⟩]⟩]
      ⟨"main", true, false, [⟨"f.py", 1, "f", [("x", 7)]⟩]⟩ fuel = none := by
  refine ⟨rfl, ?_⟩
  intro fuel
  rfl

/-! ## The retained-heap cache (`RetainedHeapCache`,
`provide_retained_heap_with_caching`)

The cache file is modelled as `Option String` (`none` = the file does not
exist, raising `FileNotFoundError` on open) and `json.load`/`RetainedHeap.load`
as a parse function returning `none` on malformed content
(`json.JSONDecodeError`). -/

inductive CacheErr
  | jsonDecodeError
  deriving Repr, DecidableEq

/-- `RetainedHeapCache.load_if_cache_exists`: only `FileNotFoundError` is
caught and turned into `None`; a parse failure propagates. -/
def loadIfCacheExists (parse : String → Option α) (file : Option String) :
    Except CacheErr (Option α) :=
  match file with
  | none => .ok none
  | some content =>
    match parse content with
    | none => .error .jsonDecodeError
    | some rh => .ok (some rh)

/-- `provide_retained_heap_with_caching`: a cache hit is returned as-is,
a miss is recomputed and stored; the result pairs the returned retained heap
with the final cache-file content. -/
def provideRetainedHeapWithCaching (parse : String → Option α)
    (serialize : α → String) (compute : α) (file : Option String) :
    Except CacheErr (α × Option String) :=
  match loadIfCacheExists parse file with
  | .error e => .error e
  | .ok (some rh) => .ok (rh, file)
  | .ok none => .ok (compute, some (serialize compute))

/-! ## `RetainedHeap.__eq__` and `objects_sorted_by_retained_heap` -/

/-- The `RetainedHeap` dataclass: per-object and per-thread retained sizes. -/
structure RetainedHeapV where
  objectRetainedHeap : List (Nat × Nat)
  threadRetainedHeap : List (String × Nat)
  deriving Repr, DecidableEq

/-- Python `dict` equality on the object maps: same keys, same values. -/
def dictEqN (a b : List (Nat × Nat)) : Bool :=
  a.all (fun p => lookupVal b p.1 == some p.2) &&
  b.all (fun p => lookupVal a p.1 == some p.2)

/-- `RetainedHeap.__eq__`: only the object maps are compared. -/
def rhEq (x y : RetainedHeapV) : Bool :=
  dictEqN x.objectRetainedHeap y.objectRetainedHeap

/-- `objects_sorted_by_retained_heap`: pair each address (in insertion order)
with its retained size (`get_for_object(addr) or 0`), then a stable sort by
retained size descending. -/
def objectsSortedByRetainedHeap (objects : List (Nat × CalcObj))
    (rh : List (Nat × Nat)) : List (Nat × Nat) :=
  sortDesc (fun p => ((p.2 : Nat) : Int))
    (objects.map (fun p => (p.1, valueD rh p.1)))

/-- A reader-valid snapshot with empty tables, assembled by hand in the
format the reader expects (the writer of this tree emits an older format). -/
def minimalSnapshot : List Nat :=
  encodeU64 MAGIC ++ encodeU32 1 ++ encodeU16 0 ++ encodeU64 0 ++
  encodeU32 0 ++ encodeU32 0 ++ encodeU32 0 ++ encodeU32 0 ++ encodeU32 0 ++
  encodeU32 0 ++ encodeU64 MAGIC

theorem dumpHeap_take8 (w : WriterData) :
    (dumpHeap w).take 8 = encodeU64 MAGIC := by
  unfold dumpHeap
  simp only [List.append_assoc]
  rw [show (8 : Nat) = (encodeU64 MAGIC).length from (beBytes_length 8 MAGIC).symm]
  exact List.take_left _ _

theorem dumpHeap_drop8 (w : WriterData) :
    (dumpHeap w).drop ((dumpHeap w).length - 8) = encodeU64 MAGIC := by
  unfold dumpHeap
  rw [List.length_append,
    show (encodeU64 MAGIC).length = 8 from beBytes_length 8 MAGIC,
    Nat.add_sub_cancel]
  exact List.drop_left _ _

theorem heapReaderRead_badOpen (buf : List Nat) (m off1 : Nat)
    (hm : readU64 buf 0 = .ok (m, off1)) (hne : m ≠ MAGIC) :
    heapReaderRead buf = .error .invalidMagic := by
  unfold heapReaderRead
  rw [hm]
  show (if m ≠ MAGIC then (Except.error RErr.invalidMagic : Except RErr RHeap)
        else do
          let (heap, off) ← readHeapBody buf off1
          let (m2, _) ← readU64 buf off
          if m2 ≠ MAGIC then .error .invalidMagic else .ok heap) =
      Except.error RErr.invalidMagic
  rw [if_pos hne]

theorem heapReaderRead_closing (buf : List Nat) (heap : RHeap)
    (off off2 m2 : Nat)
    (hopen : readU64 buf 0 = .ok (MAGIC, 8))
    (hbody : readHeapBody buf 8 = .ok (heap, off))
    (hm2 : readU64 buf off = .ok (m2, off2)) :
    heapReaderRead buf =
      (if m2 = MAGIC then .ok heap else .error .invalidMagic) := by
  unfold heapReaderRead
  rw [hopen]
  show (if MAGIC ≠ MAGIC then (Except.error RErr.invalidMagic : Except RErr RHeap)
        else do
          let (heap, off) ← readHeapBody buf 8
          let (m2, _) ← readU64 buf off
          if m2 ≠ MAGIC then .error .invalidMagic else .ok heap) = _
  rw [if_neg (fun hc => hc rfl)]
  rw [hbody]
  show (do
        let (m2, _) ← readU64 buf off
        if m2 ≠ MAGIC then (Except.error RErr.invalidMagic : Except RErr RHeap)
        else .ok heap) = _
  rw [hm2]
  show (if m2 ≠ MAGIC then (Except.error RErr.invalidMagic : Except RErr RHeap)
        else .ok heap) = _
  by_cases h : m2 = MAGIC
  · rw [if_neg (fun hc => hc h), if_pos h]
  · rw [if_pos h, if_neg h]

/-- C1: the snapshot writer of this tree emits no well-known-types table and
no container payloads, while the reader requires both; reading back the
writer's own output fails (here with a truncation error from the misaligned
parse) instead of returning an equivalent heap. -/
theorem writer_reader_roundtrip_fails :
    heapReaderRead (dumpHeap ⟨"x", false, [], [], [], [], []⟩) =
      .error .truncated := rfl

/-- C5, counterexample: the reader checks the closing magic at the offset
where the body parse ends, not at the last u64 of the file — a snapshot with
trailing junk still parses, though its last eight bytes are not the magic;
and the claimed hex spelling 0x0754_D441 is not the magic value. -/
theorem trailing_bytes_ignored :
    heapReaderRead minimalSnapshot = .ok ⟨⟨1, "", ⟨false⟩, []⟩, [], [], []⟩ ∧
    heapReaderRead (minimalSnapshot ++ [77]) =
      .ok ⟨⟨1, "", ⟨false⟩, []⟩, [], [], []⟩ ∧
    (minimalSnapshot ++ [77]).drop ((minimalSnapshot ++ [77]).length - 8) ≠
      encodeU64 MAGIC ∧
    (0x0754D441 : Nat) ≠ MAGIC :=
  ⟨rfl, rfl, by decide, by decide⟩

/-- C5 (amended): the magic value is `123_000_321` (not hex `0x0754_D441`);
the writer brackets the payload with it as first and last u64; the reader
fails with `ValueError` when the opening u64 differs, and checks the closing
u64 at the offset where the body parse ends (trailing bytes beyond it are
ignored), failing when that u64 differs and succeeding when it matches. -/
theorem magic_framing (w : WriterData) (buf : List Nat) :
    ((dumpHeap w).take 8 = encodeU64 MAGIC ∧
     (dumpHeap w).drop ((dumpHeap w).length - 8) = encodeU64 MAGIC) ∧
    MAGIC = 123000321 ∧
    (∀ m off1, readU64 buf 0 = .ok (m, off1) → m ≠ MAGIC →
      heapReaderRead buf = .error .invalidMagic) ∧
    (∀ heap off m2 off2, readU64 buf 0 = .ok (MAGIC, 8) →
      readHeapBody buf 8 = .ok (heap, off) → readU64 buf off = .ok (m2, off2) →
      heapReaderRead buf =
        (if m2 = MAGIC then .ok heap else .error .invalidMagic)) :=
  ⟨⟨dumpHeap_take8 w, dumpHeap_drop8 w⟩, rfl,
   fun m off1 hm hne => heapReaderRead_badOpen buf m off1 hm hne,
   fun heap off m2 off2 h1 h2 h3 =>
     heapReaderRead_closing buf heap off off2 m2 h1 h2 h3⟩

/-- Witness for C5: the writer's framing on a trivial snapshot, and the
hand-assembled minimal snapshot accepted end to end. -/
theorem magic_framing_witness :
    ((dumpHeap ⟨"", false, [], [], [], [], []⟩).take 8 = encodeU64 MAGIC ∧
     (dumpHeap ⟨"", false, [], [], [], [], []⟩).drop
        ((dumpHeap ⟨"", false, [], [], [], [], []⟩).length - 8) =
       encodeU64 MAGIC) ∧
    heapReaderRead minimalSnapshot =
      (if MAGIC = MAGIC then .ok (⟨⟨1, "", ⟨false⟩, []⟩, [], [], []⟩ : RHeap)
       else .error .invalidMagic) :=
  ⟨(magic_framing ⟨"", false, [], [], [], [], []⟩ minimalSnapshot).1,
   (magic_framing ⟨"", false, [], [], [], [], []⟩ minimalSnapshot).2.2.2
     ⟨⟨1, "", ⟨false⟩, []⟩, [], [], []⟩ 46 MAGIC 54 rfl rfl rfl⟩

/-- C6, counterexample: a cache file that exists but fails to parse is not a
miss — the `json.JSONDecodeError` propagates out of `load_if_cache_exists`
and `provide_retained_heap_with_caching`, and nothing is recomputed. -/
theorem cache_corrupt_raises :
    loadIfCacheExists (fun _ => (none : Option Nat)) (some "garbage") =
      .error .jsonDecodeError ∧
    provideRetainedHeapWithCaching (fun _ => (none : Option Nat))
        (fun _ => "") 42 (some "garbage") =
      .error .jsonDecodeError :=
  ⟨rfl, rfl⟩

/-- C6 (amended): only a missing cache file (`FileNotFoundError`) is treated
as a miss and triggers recomputation and a store; an existing parseable file
is returned as-is without a store; an existing file that fails to parse makes
the load and the whole caching provider raise the parse error. -/
theorem cache_behavior (parse : String → Option α) (serialize : α → String)
    (compute : α) :
    (loadIfCacheExists parse none = .ok none ∧
     provideRetainedHeapWithCaching parse serialize compute none =
       .ok (compute, some (serialize compute))) ∧
    (∀ content rh, parse content = some rh →
      provideRetainedHeapWithCaching parse serialize compute (some content) =
        .ok (rh, some content)) ∧
    (∀ content, parse content = none →
      loadIfCacheExists parse (some content) = .error .jsonDecodeError ∧
      provideRetainedHeapWithCaching parse serialize compute (some content) =
        .error .jsonDecodeError) := by
  refine ⟨⟨rfl, rfl⟩, ?_, ?_⟩
  · intro content rh h
    unfold provideRetainedHeapWithCaching loadIfCacheExists
    show (match (match parse content with
          | none => Except.error CacheErr.jsonDecodeError
          | some rh => Except.ok (some rh)) with
      | Except.error e => Except.error e
      | Except.ok (some rh) => Except.ok (rh, some content)
      | Except.ok none => Except.ok (compute, some (serialize compute))) = _
    rw [h]
  · intro content h
    constructor
    · unfold loadIfCacheExists
      show (match parse content with
        | none => Except.error CacheErr.jsonDecodeError
        | some rh => Except.ok (some rh)) = _
      rw [h]
    · unfold provideRetainedHeapWithCaching loadIfCacheExists
      show (match (match parse content with
            | none => Except.error CacheErr.jsonDecodeError
            | some rh => Except.ok (some rh)) with
        | Except.error e => Except.error e
        | Except.ok (some rh) => Except.ok (rh, some content)
        | Except.ok none => Except.ok (compute, some (serialize compute))) = _
      rw [h]

/-- Witness for C6: a parse function accepting exactly `"ok"`; a hit on
`"ok"`, a raised decode error on `"bad"`, a recomputation on a missing
file. -/
theorem cache_behavior_witness :
    (loadIfCacheExists (fun s => if s = "ok" then some 7 else none) none =
        .ok none ∧
     provideRetainedHeapWithCaching (fun s => if s = "ok" then some 7 else none)
        (fun _ => "ok") 42 none = .ok (42, some "ok")) ∧
    provideRetainedHeapWithCaching (fun s => if s = "ok" then some 7 else none)
        (fun _ => "ok") 42 (some "ok") = .ok (7, some "ok") ∧
    provideRetainedHeapWithCaching (fun s => if s = "ok" then some 7 else none)
        (fun _ => "ok") 42 (some "bad") = .error .jsonDecodeError :=
  ⟨(cache_behavior (fun s => if s = "ok" then some 7 else none)
      (fun _ => "ok") 42).1,
   (cache_behavior (fun s => if s = "ok" then some 7 else none)
      (fun _ => "ok") 42).2.1 "ok" 7 (by decide),
   ((cache_behavior (fun s => if s = "ok" then some 7 else none)
      (fun _ => "ok") 42).2.2 "bad" (by decide)).2⟩

/-- C8, counterexample: two objects with equal retained size 5, inserted in
address order 2 then 1, are listed in insertion order (2 before 1) — not in
ascending address order as the spec claims. -/
theorem objects_sorted_tie_insertion_order :
    objectsSortedByRetainedHeap [(2, ⟨1, []⟩), (1, ⟨1, []⟩)] [(1, 5), (2, 5)] =
      [(2, 5), (1, 5)] ∧
    objectsSortedByRetainedHeap [(2, ⟨1, []⟩), (1, ⟨1, []⟩)] [(1, 5), (2, 5)] ≠
      [(1, 5), (2, 5)] :=
  ⟨by decide, by decide⟩

/-- C8 (amended): the objects-by-retained-heap view pairs every object with
its retained size (0 when absent), sorted by retained size descending; the
sort is stable, so objects with equal retained size keep the object map's
insertion order — there is no tie-break by address. -/
theorem objects_sorted_spec (objects : List (Nat × CalcObj))
    (rh : List (Nat × Nat)) :
    (objectsSortedByRetainedHeap objects rh).Perm
      (objects.map (fun p => (p.1, valueD rh p.1))) ∧
    SortedDesc (fun p => ((p.2 : Nat) : Int)) (objectsSortedByRetainedHeap objects rh) ∧
    ∀ k : Int,
      (objectsSortedByRetainedHeap objects rh).filter
          (fun p => ((p.2 : Nat) : Int) = k) =
        (objects.map (fun p => (p.1, valueD rh p.1))).filter
          (fun p => ((p.2 : Nat) : Int) = k) :=
  ⟨sortDesc_perm _ _, sortDesc_sorted _ _, fun k => sortDesc_filter _ _ k⟩

theorem find?_fst_eq_of_mem_nodup (l : List (Nat × Nat))
    (HK : (l.map (·.1)).Nodup) (p : Nat × Nat) (hp : p ∈ l) :
    l.find? (fun q => q.1 = p.1) = some p := by
  induction l with
  | nil => cases hp
  | cons q qs ih =>
    rcases List.mem_cons.mp hp with rfl | hp2
    · rw [List.find?_cons_of_pos _ (by simp)]
    · have hq : q.1 ≠ p.1 := by
        intro hc
        have : q.1 ∈ qs.map (·.1) := by
          rw [hc]
          exact List.mem_map.mpr ⟨p, hp2, rfl⟩
        exact (List.nodup_cons.mp HK).1 this
      rw [List.find?_cons_of_neg _ (by simpa using hq)]
      exact ih (List.nodup_cons.mp HK).2 hp2

/-- C9: `RetainedHeap.__eq__` compares only the per-object maps — the
per-thread maps play no role, and a value with duplicate-free keys equals
itself whatever the thread maps are. -/
theorem retained_heap_eq_ignores_threads (ox oy : List (Nat × Nat))
    (tx ty : List (String × Nat)) (hnd : (ox.map (·.1)).Nodup) :
    (∀ tz tw, rhEq ⟨ox, tz⟩ ⟨oy, tw⟩ = dictEqN ox oy) ∧
    rhEq ⟨ox, tx⟩ ⟨ox, ty⟩ = true := by
  constructor
  · intro tz tw
    rfl
  · show dictEqN ox ox = true
    unfold dictEqN
    rw [Bool.and_self]
    rw [List.all_eq_true]
    intro p hp
    have : lookupVal ox p.1 = some p.2 := by
      unfold lookupVal
      rw [find?_fst_eq_of_mem_nodup ox hnd p hp]
      rfl
    simpa using this

/-- Witness for C9: two values with identical object maps and different
thread maps compare equal; the comparison coincides with object-map
equality. -/
theorem retained_heap_eq_ignores_threads_witness :
    (∀ tz tw, rhEq ⟨[(1, 5)], tz⟩ ⟨[(1, 6)], tw⟩ =
      dictEqN [(1, 5)] [(1, 6)]) ∧
    rhEq ⟨[(1, 5)], [("a", 1)]⟩ ⟨[(1, 5)], [("b", 9)]⟩ = true :=
  retained_heap_eq_ignores_threads [(1, 5)] [(1, 6)] [("a", 1)] [("b", 9)]
    (by decide)

/-- C10: decoding a string with a known length never fails on the bytes'
values — whenever the declared length fits in the buffer the read succeeds
(malformed UTF-8 is backslash-escaped by the decoder), and it fails with a
truncation error exactly when the length overruns the buffer. -/
theorem read_string_total (buf : List Nat) (off n : Nat) :
    (off + n ≤ buf.length →
      readStringKnownLength buf off n =
        .ok (utf8DecodeBackslash ((buf.drop off).take n), off + n)) ∧
    (buf.length < off + n →
      readStringKnownLength buf off n = .error .truncated) := by
  constructor
  · intro h
    unfold readStringKnownLength readBytes
    rw [if_pos h]
    rfl
  · intro h
    unfold readStringKnownLength readBytes
    rw [if_neg (by omega)]
    rfl

/-- Witness for C10: two bytes that are not valid UTF-8 still decode. -/
theorem read_string_total_witness :
    readStringKnownLength [255, 65] 0 2 =
      .ok (utf8DecodeBackslash (([255, 65].drop 0).take 2), 0 + 2) :=
  (read_string_total [255, 65] 0 2).1 (by decide)

/-- The signed 16-bit encoding of `-i-1` for an in-range index decodes back
to `-i-1`. -/
theorem decodeI16_encodeI16_neg (i : Nat) (hi : i < 2 ^ 15) :
    decodeI16 (encodeI16 (-(i : Int) - 1)) = -(i : Int) - 1 := by
  unfold encodeI16 decodeI16
  have hmod : (-(i : Int) - 1).emod 65536 = 65536 - (i + 1) := by
    rw [show -(i : Int) - 1 = (65536 - ((i : Int) + 1)) + 65536 * (-1) from by ring]
    show (65536 - ((i : Int) + 1) + 65536 * -1) % 65536 = 65536 - ((i : Int) + 1)
    rw [Int.add_mul_emod_self_left]
    exact Int.emod_eq_of_lt (by omega) (by omega)
  rw [hmod]
  have htn : ((65536 - ((i : Int) + 1)).toNat : Int) = 65536 - ((i : Int) + 1) := by
    rw [Int.toNat_of_nonneg]
    omega
  have hlt : (65536 - ((i : Int) + 1)).toNat < 65536 := by omega
  rw [beVal_beBytes_two _ hlt]
  rw [if_neg (by omega)]
  omega

/-- C7: a frequent attribute at index `i < 2^15` is written as the signed
16-bit value `-i-1` (followed only by the value address, no string bytes),
and the reader maps the negative wire value back to index `i`, resolving the
`i`-th entry of the frequent-attribute table. -/
theorem freq_attr_roundtrip (freq : List String) (name : String)
    (value i : Nat) (hfind : freq.indexOf? name = some i) (hi : i < 2 ^ 15)
    (rest : List Nat) :
    writeAttribute freq name value = encodeI16 (-(i : Int) - 1) ++ encodeU64 value ∧
    decodeI16 (encodeI16 (-(i : Int) - 1)) = -(i : Int) - 1 ∧
    ∀ (h : i < freq.length),
      readAttributeName (encodeI16 (-(i : Int) - 1) ++ rest) freq 0 =
        .ok (freq.get ⟨i, h⟩, 2) := by
  refine ⟨?_, decodeI16_encodeI16_neg i hi, ?_⟩
  · unfold writeAttribute
    rw [hfind]
  · intro h
    have hlen : (encodeI16 (-(i : Int) - 1)).length = 2 := beBytes_length 2 _
    have hss : readSignedShort (encodeI16 (-(i : Int) - 1) ++ rest) 0 =
        .ok (-(i : Int) - 1, 2) := by
      unfold readSignedShort readBytes
      rw [if_pos (by rw [List.length_append, hlen]; omega)]
      have htake : (encodeI16 (-(i : Int) - 1) ++ rest).take 2 =
          encodeI16 (-(i : Int) - 1) := by
        conv_lhs =>
          rw [show (2 : Nat) = (encodeI16 (-(i : Int) - 1)).length from hlen.symm]
        exact List.take_left _ _
      show Except.ok
          (decodeI16 (((encodeI16 (-(i : Int) - 1) ++ rest).drop 0).take 2), 0 + 2) = _
      rw [List.drop_zero, htake, decodeI16_encodeI16_neg i hi]
    unfold readAttributeName
    rw [hss]
    show (if (0 : Int) ≤ -(i : Int) - 1 then
            readStringKnownLength (encodeI16 (-(i : Int) - 1) ++ rest) 2
              (-(i : Int) - 1).toNat
          else
            match freq.get? ((-1 * ((-(i : Int) - 1) + 1)).toNat) with
            | some s => .ok (s, 2)
            | none => .error .indexError) = _
    rw [if_neg (by omega),
      show ((-1 * ((-(i : Int) - 1) + 1)).toNat) = i from by omega,
      List.get?_eq_get h]

/-- Witness for C7: the table `["size", "name"]`, attribute `"name"` at
index 1, written as `-2` and read back as entry 1. -/
theorem freq_attr_roundtrip_witness :
    writeAttribute ["size", "name"] "name" 7 =
      encodeI16 (-(1 : Int) - 1) ++ encodeU64 7 ∧
    decodeI16 (encodeI16 (-(1 : Int) - 1)) = -(1 : Int) - 1 ∧
    ∀ (h : 1 < (["size", "name"] : List String).length),
      readAttributeName (encodeI16 (-(1 : Int) - 1) ++ [9]) ["size", "name"] 0 =
        .ok ((["size", "name"] : List String).get ⟨1, h⟩, 2) :=
  freq_attr_roundtrip ["size", "name"] "name" 7 1 (by decide) (by decide) [9]

end PyHeapProof
